import Mathlib

/-!
Verification development for the ContextWeaver retrieval core.

Shallow embedding of the TypeScript sources:
* `src/chunking/SemanticSplitter.ts` (the current splitter, with boundary
  penalty and comment forward-absorption) — namespace `SemanticSplitter`;
* `src/search/SearchService.ts` (vector retrieve, hybrid retrieve, RRF fuse,
  smart top-K cutoff) — namespace `SearchService`;
* `src/search/GraphExpander.ts` (E1 same-file neighbor expansion) —
  namespace `GraphExpander`;
* `src/vectorStore/index.ts` (monotonic upsert, batch upsert) — namespace
  `VectorStore`;
* `src/db/index.ts` and `src/search/fts.ts` (batch upsert of the files table
  and of the files_fts mirror) — namespace `Db`;
* `src/search/ContextPacker.ts` — namespace `ContextPacker`.

JavaScript numbers are modelled by `ℚ` where fractional arithmetic occurs
(scores, budgets with 0.7/1.5/0.25 factors) and by `ℕ`/`ℤ` where the source
only ever holds integers (indices, counts).  JavaScript `Array.prototype.sort`
with a comparator `(a, b) => k(b) - k(a)` (resp. `k(a) - k(b)`) is a stable
sort ordered by `k` descending (resp. ascending); it is modelled by
`List.insertionSort` with the relation `k b ≤ k a` (resp. `k a ≤ k b`),
which is stable and sorted the same way.
-/

/-- `l.slice a b` of JavaScript strings/arrays for `0 ≤ a ≤ b` (the only way
the embedded code calls it): drop `a` elements, keep the next `b - a`. -/
def sliceL (l : List Char) (a b : ℕ) : List Char :=
  (l.drop a).take (b - a)

/-- A half-open index interval; `stop` models the source field `end`
(a reserved word in Lean). -/
structure Span where
  start : ℕ
  stop : ℕ
deriving DecidableEq, Repr

/-- Non-whitespace character predicate of `SourceAdapter.buildNwsPrefixSum`:
everything except space, tab, newline, carriage return counts. -/
def isNwsChar (c : Char) : Bool :=
  !(c = ' ' || c = '\t' || c = '\n' || c = '\r')

/-- Count of non-whitespace characters in a character list.  The adapter
computes this as a difference of two prefix sums over the enclosing source;
on an interval that holds exactly these characters both give this value. -/
def countNws (l : List Char) : ℕ :=
  (l.filter isNwsChar).length

/-- `lines.join('\n')`. -/
def joinNl : List (List Char) → List Char
  | [] => []
  | [x] => x
  | x :: y :: rest => x ++ '\n' :: joinNl (y :: rest)

/-- Length of `lines.join('\n')`. -/
def joinLen (ls : List (List Char)) : ℕ :=
  (joinNl ls).length

namespace SemanticSplitter

/-- The projection of a tree-sitter `SyntaxNode` that the splitter reads:
its index span and its node type string. -/
structure Node where
  startIndex : ℕ
  endIndex : ℕ
  type : String
deriving DecidableEq, Repr

/-- `Window` of `src/chunking/types.ts`: a run of sibling nodes, its
gap-inclusive NWS size, and the context path.  The size is an integer JS
number (sums and differences of NWS counts). -/
structure Window where
  nodes : List Node
  size : ℤ
  contextPath : List String
deriving DecidableEq, Repr

/-- `SplitterConfig`; all four fields are JS numbers. -/
structure SplitterConfig where
  maxChunkSize : ℚ
  minChunkSize : ℚ
  chunkOverlap : ℚ
  maxRawChars : ℚ
deriving DecidableEq, Repr

/-- Constructor defaults of `SemanticSplitter` (`SemanticSplitter.ts`):
maxChunkSize 2500, minChunkSize 100, chunkOverlap 200,
maxRawChars = maxChunkSize * 4. -/
def defaultConfig : SplitterConfig :=
  { maxChunkSize := 2500, minChunkSize := 100, chunkOverlap := 200, maxRawChars := 10000 }

/-- `w.nodes[0]` — every window built by `visitNode` carries at least one
node, so the default is never read on reachable inputs. -/
def firstNode (w : Window) : Node :=
  w.nodes.headD { startIndex := 0, endIndex := 0, type := "" }

/-- `w.nodes[w.nodes.length - 1]`. -/
def lastNode (w : Window) : Node :=
  w.nodes.getLastD { startIndex := 0, endIndex := 0, type := "" }

/-- Semantic end of a window (`nodes[last].endIndex`). -/
def windowEnd (w : Window) : ℕ :=
  (lastNode w).endIndex

/-- The counting loop of `isSameContext`: length of the run of equal leading
components (stops at the shorter path). -/
def commonLen : List String → List String → ℕ
  | x :: xs, y :: ys => if x = y then commonLen xs ys + 1 else 0
  | _, _ => 0

/-- `isSameContext` of `SemanticSplitter.ts`: the common prefix is at least
as long as the shorter of the two paths. -/
def isSameContext (a b : List String) : Bool :=
  decide (min a.length b.length ≤ commonLen a b)

/-- Split `nodes` into its leading part and its maximal trailing run of
comment nodes (`forwardAbsorbComments` pops the latter from the tail). -/
def splitTrailingComments (commentTypes : List String) : List Node → List Node × List Node
  | [] => ([], [])
  | n :: rest =>
    let (kept, absorbed) := splitTrailingComments commentTypes rest
    if kept.isEmpty && commentTypes.contains n.type then ([], n :: absorbed)
    else (n :: kept, absorbed)

/-- `forwardAbsorbComments`: move the trailing comment nodes of `current` to
the front of `next`, shrinking `current.size` by their NWS and growing
`next.size` by their NWS plus the new gap. -/
def forwardAbsorbComments (commentTypes : List String) (nws : ℕ → ℕ → ℕ)
    (current next : Window) : Window × Window :=
  let (kept, absorbed) := splitTrailingComments commentTypes current.nodes
  match absorbed.getLast? with
  | none => (current, next)
  | some lastAbsorbed =>
    let absorbedNws : ℤ := (absorbed.map (fun n => (nws n.startIndex n.endIndex : ℤ))).sum
    let gapNws : ℤ :=
      match next.nodes.head? with
      | some firstNext => (nws lastAbsorbed.endIndex firstNext.startIndex : ℤ)
      | none => 0
    ({ nodes := kept, size := current.size - absorbedNws, contextPath := current.contextPath },
     { nodes := absorbed ++ next.nodes, size := next.size + absorbedNws + gapNws,
       contextPath := next.contextPath })

/-- The triple-budget decision of `mergeAdjacentWindows` (computed after
comment absorption): NWS budget with boundary penalty, tiny-window
exception, raw-length budget. -/
def shouldMergeWindows (cfg : SplitterConfig) (nws : ℕ → ℕ → ℕ)
    (current next : Window) : Bool :=
  let currentStart := (firstNode current).startIndex
  let currentEnd := (lastNode current).endIndex
  let nextStart := (firstNode next).startIndex
  let nextEnd := (lastNode next).endIndex
  let gapNws : ℤ := (nws currentEnd nextStart : ℤ)
  let combinedNws : ℤ := current.size + gapNws + next.size
  let combinedRawLen : ℤ := (nextEnd : ℤ) - (currentStart : ℤ)
  let sameContext := isSameContext current.contextPath next.contextPath
  let boundaryPenalty : ℚ := if sameContext then 1.0 else 0.7
  let isTiny := decide ((current.size : ℚ) < cfg.minChunkSize)
  let effectiveBudget := cfg.maxChunkSize * boundaryPenalty
  let fitsNwsBudget :=
    decide ((combinedNws : ℚ) ≤ effectiveBudget) ||
      (isTiny && decide ((combinedNws : ℚ) < effectiveBudget * 1.5))
  let fitsRawBudget := decide ((combinedRawLen : ℚ) ≤ cfg.maxRawChars * boundaryPenalty)
  fitsNwsBudget && fitsRawBudget

/-- The merged window produced when the budgets fit: `current` swallows
`next`, the size becomes `combinedNws`, and the longer (more specific)
context path is kept. -/
def mergedWindow (nws : ℕ → ℕ → ℕ) (current next : Window) : Window :=
  let currentEnd := (lastNode current).endIndex
  let nextStart := (firstNode next).startIndex
  let gapNws : ℤ := (nws currentEnd nextStart : ℤ)
  { nodes := current.nodes ++ next.nodes,
    size := current.size + gapNws + next.size,
    contextPath :=
      if current.contextPath.length < next.contextPath.length then next.contextPath
      else current.contextPath }

/-- The left-to-right scan of `mergeAdjacentWindows` from the second window
on, with `current` as accumulator. -/
def mergeLoop (cfg : SplitterConfig) (commentTypes : List String) (nws : ℕ → ℕ → ℕ) :
    Window → List Window → List Window
  | current, [] => [current]
  | current, next :: rest =>
    let p := forwardAbsorbComments commentTypes nws current next
    if p.1.nodes.isEmpty then mergeLoop cfg commentTypes nws p.2 rest
    else if shouldMergeWindows cfg nws p.1 p.2 then
      mergeLoop cfg commentTypes nws (mergedWindow nws p.1 p.2) rest
    else p.1 :: mergeLoop cfg commentTypes nws p.2 rest

/-- `mergeAdjacentWindows` of `SemanticSplitter.ts`. -/
def mergeAdjacentWindows (cfg : SplitterConfig) (commentTypes : List String)
    (nws : ℕ → ℕ → ℕ) (windows : List Window) : List Window :=
  match windows with
  | [] => []
  | w :: rest => mergeLoop cfg commentTypes nws w rest

/-- The binary-search loop of `findOverlapStart`; `res` is the best start
found so far. -/
def overlapSearch (nws : ℕ → ℕ → ℕ) (start : ℕ) (target : ℚ) :
    ℤ → ℤ → ℤ → ℤ
  | low, high, res =>
    if h : low ≤ high then
      let mid := (low + high) / 2
      if target ≤ (nws mid.toNat start : ℚ) then
        overlapSearch nws start target (mid + 1) high mid
      else
        overlapSearch nws start target low (mid - 1) res
    else res
termination_by low high _ => (high + 1 - low).toNat
decreasing_by
  all_goals simp_wf
  all_goals omega

/-- `findOverlapStart`: largest position whose NWS distance to `start`
reaches `target`, clamped to the file start. -/
def findOverlapStart (nws : ℕ → ℕ → ℕ) (start : ℕ) (target : ℚ) : ℕ :=
  if start = 0 ∨ target ≤ 0 then start
  else (max 0 (overlapSearch nws start target 0 (start : ℤ) (start : ℤ))).toNat

/-- The metadata of a `ProcessedChunk` (the fields the invariants speak
about; `displayCode`/`vectorText` are adapter slices of these spans). -/
structure ChunkMeta where
  startIndex : ℕ
  endIndex : ℕ
  rawSpan : Span
  vectorSpan : Span
  contextPath : List String
deriving DecidableEq, Repr

/-- The chunk emitted for one window by the loop body of
`windowsToChunks`: `prevEnd` is the previous window's semantic end, `i` the
running index, `isLast` whether this is the final window, `fileEnd` the
file end in the adapter's index domain (UTF-8 byte length in the utf8
domain, UTF-16 length otherwise). -/
def emitChunk (cfg : SplitterConfig) (nws : ℕ → ℕ → ℕ) (fileEnd : ℕ)
    (w : Window) (prevEnd i : ℕ) (isLast : Bool) : ChunkMeta :=
  let start := (firstNode w).startIndex
  let stop := (lastNode w).endIndex
  let rawSpanEnd := if isLast then fileEnd else stop
  let vectorStart :=
    if 0 < i ∧ 0 < cfg.chunkOverlap then
      let candidateStart := findOverlapStart nws start cfg.chunkOverlap
      -- candidateStart ≤ start always holds (`findOverlapStart_le`), so the
      -- ℕ subtraction below equals the JS number `start - candidateStart`.
      if ((start - candidateStart : ℕ) : ℚ) ≤ cfg.maxRawChars * 0.25 then candidateStart
      else start
    else start
  { startIndex := start, endIndex := stop,
    rawSpan := { start := prevEnd, stop := rawSpanEnd },
    vectorSpan := { start := vectorStart, stop := stop },
    contextPath := w.contextPath }

/-- The loop of `windowsToChunks` over the windows. -/
def windowsToChunksGo (cfg : SplitterConfig) (nws : ℕ → ℕ → ℕ) (fileEnd : ℕ) :
    List Window → ℕ → ℕ → List ChunkMeta
  | [], _, _ => []
  | w :: rest, prevEnd, i =>
    emitChunk cfg nws fileEnd w prevEnd i rest.isEmpty
      :: windowsToChunksGo cfg nws fileEnd rest (windowEnd w) (i + 1)

/-- `windowsToChunks` of `SemanticSplitter.ts`. -/
def windowsToChunks (cfg : SplitterConfig) (nws : ℕ → ℕ → ℕ) (fileEnd : ℕ)
    (windows : List Window) : List ChunkMeta :=
  match windows with
  | [] => []
  | _ => windowsToChunksGo cfg nws fileEnd windows 0 0

/-- Loop of `fallbackSplit` over the remaining lines.  State variables are
those of the source: `lineStartIndex`, `currentLines`, `currentSize`,
`chunkStartIndex` and `chunkRawStart` (the latter two are always equal, see
`fallbackGo`'s uses).  Each line's NWS is the adapter prefix-sum difference
over exactly that line's interval, i.e. `countNws line`. -/
def fallbackGo (cfg : SplitterConfig) (codeLen : ℕ) (fp : String) :
    List (List Char) → ℕ → List (List Char) → ℕ → ℕ → ℕ → List ChunkMeta
  | [], _, currentLines, _, chunkStartIndex, chunkRawStart =>
    if currentLines.isEmpty then []
    else
      let chunkEndIndex := chunkStartIndex + joinLen currentLines
      [{ startIndex := chunkStartIndex, endIndex := chunkEndIndex,
         rawSpan := { start := chunkRawStart, stop := codeLen },
         vectorSpan := { start := chunkStartIndex, stop := chunkEndIndex },
         contextPath := [fp] }]
  | line :: restLines, lineStartIndex, currentLines, currentSize, chunkStartIndex,
      chunkRawStart =>
    let lineEndIndex := lineStartIndex + line.length
    let lineNws := countNws line
    if cfg.maxChunkSize < ((currentSize + lineNws : ℕ) : ℚ) ∧ ¬ currentLines.isEmpty then
      let chunkEndIndex := chunkStartIndex + joinLen currentLines
      { startIndex := chunkStartIndex, endIndex := chunkEndIndex,
        rawSpan := { start := chunkRawStart, stop := chunkEndIndex + 1 },
        vectorSpan := { start := chunkStartIndex, stop := chunkEndIndex },
        contextPath := [fp] }
        :: fallbackGo cfg codeLen fp restLines (lineEndIndex + 1) [line] lineNws
            (chunkEndIndex + 1) (chunkEndIndex + 1)
    else
      fallbackGo cfg codeLen fp restLines (lineEndIndex + 1)
        (currentLines ++ [line]) (currentSize + lineNws) chunkStartIndex chunkRawStart

/-- `fallbackSplit` of `SemanticSplitter.ts`, over the file's lines
(`code.split('\n')`; the file text is their `'\n'`-join, always in the
UTF-16 domain). -/
def fallbackSplit (cfg : SplitterConfig) (fp : String) (lines : List (List Char)) :
    List ChunkMeta :=
  let code := joinNl lines
  let totalSize := countNws code
  if (totalSize : ℚ) ≤ cfg.maxChunkSize then
    [{ startIndex := 0, endIndex := code.length,
       rawSpan := { start := 0, stop := code.length },
       vectorSpan := { start := 0, stop := code.length },
       contextPath := [fp] }]
  else
    fallbackGo cfg code.length fp lines 0 [] 0 0 0

end SemanticSplitter

namespace SearchService

/-- Chunk source tag (`ChunkSource` of `src/search/types.ts`); `importSrc`
models the string tag `import` (a reserved word in Lean). -/
inductive ChunkSource where
  | vector
  | lexical
  | neighbor
  | breadcrumb
  | importSrc
deriving DecidableEq, Repr

/-- The slice of `ScoredChunk` the embedded search code reads: key fields,
score, source, the record's `_distance` and the recall `_rank`. -/
structure SChunk where
  filePath : String
  chunkIndex : ℤ
  score : ℚ
  source : ChunkSource
  recDist : ℚ
  rank : ℕ
deriving DecidableEq, Repr

/-- `SearchConfig` of `src/search/types.ts` (counts as `ℕ`, continuous
parameters as `ℚ`). -/
structure SearchConfig where
  vectorTopK : ℕ
  vectorTopM : ℕ
  ftsTopKFiles : ℕ
  lexChunksPerFile : ℕ
  lexTotalChunks : ℕ
  rrfK0 : ℚ
  wVec : ℚ
  wLex : ℚ
  fusedTopM : ℕ
  rerankTopN : ℕ
  maxRerankChars : ℕ
  maxBreadcrumbChars : ℕ
  headRatio : ℚ
  neighborHops : ℕ
  breadcrumbExpandLimit : ℕ
  importFilesPerSeed : ℕ
  chunksPerImportFile : ℕ
  decayNeighbor : ℚ
  decayBreadcrumb : ℚ
  decayImport : ℚ
  decayDepth : ℚ
  maxSegmentsPerFile : ℕ
  maxTotalChars : ℕ
  enableSmartTopK : Bool
  smartTopScoreRatio : ℚ
  smartTopScoreDeltaAbs : ℚ
  smartMinScore : ℚ
  smartMinK : ℕ
  smartMaxK : ℕ
deriving DecidableEq, Repr

/-- `DEFAULT_CONFIG` of `src/search/config.ts`. -/
def DEFAULT_CONFIG : SearchConfig :=
  { vectorTopK := 80, vectorTopM := 60, ftsTopKFiles := 20, lexChunksPerFile := 2,
    lexTotalChunks := 40,
    rrfK0 := 20, wVec := 0.6, wLex := 0.4, fusedTopM := 60,
    rerankTopN := 10, maxRerankChars := 1000, maxBreadcrumbChars := 250, headRatio := 0.67,
    neighborHops := 1, breadcrumbExpandLimit := 1, importFilesPerSeed := 5,
    chunksPerImportFile := 2,
    decayNeighbor := 0.8, decayBreadcrumb := 0.7, decayImport := 0.6, decayDepth := 0.7,
    maxSegmentsPerFile := 3, maxTotalChars := 48000,
    enableSmartTopK := true,
    smartTopScoreRatio := 0.5, smartTopScoreDeltaAbs := 0.25, smartMinScore := 0.25,
    smartMinK := 2, smartMaxK := 8 }

/-- `chunkKey` of `SearchService.ts`: the dedup key `filePath#chunkIndex`. -/
def chunkKey (c : SChunk) : String :=
  c.filePath ++ "#" ++ toString c.chunkIndex

/-- Stable descending sort by score — the model of
`candidates.slice().sort((a, b) => b.score - a.score)`. -/
def sortByScoreDesc (l : List SChunk) : List SChunk :=
  List.insertionSort (fun a b => b.score ≤ a.score) l

/-- A raw vector-store search result: the fields of `SearchResult` the
vector recall reads (`file_path`, `chunk_index`, `_distance`). -/
structure VecRaw where
  file_path : String
  chunk_index : ℤ
  dist : ℚ
deriving DecidableEq, Repr

/-- `Array.prototype.map` with the index callback argument, counting from
`i`. -/
def mapIdxFrom (f : ℕ → VecRaw → SChunk) : ℕ → List VecRaw → List SChunk
  | _, [] => []
  | i, r :: rest => f i r :: mapIdxFrom f (i + 1) rest

/-- `vectorRetrieve` of `SearchService.ts` given the raw `textSearch`
output (`null` maps to `none`): sort ascending by distance, keep
`vectorTopM`, convert distance to similarity `1 / (1 + distance)` and
record the recall rank. -/
def vectorRetrieve (cfg : SearchConfig) (results : Option (List VecRaw)) : List SChunk :=
  match results with
  | none => []
  | some rs =>
    mapIdxFrom
      (fun rank r =>
        { filePath := r.file_path, chunkIndex := r.chunk_index,
          score := 1 / (1 + r.dist), source := SearchService.ChunkSource.vector,
          recDist := r.dist, rank := rank })
      0
      ((List.insertionSort (fun a b => a.dist ≤ b.dist) rs).take cfg.vectorTopM)

/-- An entry of the `fusedScores` map of `fuse` (JS `Map` preserves
insertion order, so the map is an ordered association list). -/
structure FuseEntry where
  key : String
  score : ℚ
  chunk : SChunk
  sources : List ChunkSource
deriving DecidableEq, Repr

/-- One step of RRF accumulation: add `weight / (k0 + rank)` for `r` to its
entry, creating the entry at the back on first sight. -/
def fuseInsert (k0 weight : ℚ) (tag : ChunkSource) :
    List FuseEntry → SChunk → List FuseEntry
  | [], r =>
    [{ key := chunkKey r, score := weight / (k0 + r.rank), chunk := r, sources := [tag] }]
  | e :: rest, r =>
    if e.key = chunkKey r then
      { e with score := e.score + weight / (k0 + r.rank),
               sources := if e.sources.contains tag then e.sources else e.sources ++ [tag] }
        :: rest
    else e :: fuseInsert k0 weight tag rest r

/-- `fuse` of `SearchService.ts`: RRF over both result lists, then a stable
sort by fused score descending.  A chunk found by both branches is
re-tagged `vector`. -/
def fuse (cfg : SearchConfig) (vectorResults lexicalResults : List SChunk) : List SChunk :=
  let m1 := vectorResults.foldl (fuseInsert cfg.rrfK0 cfg.wVec ChunkSource.vector) []
  let m2 := lexicalResults.foldl (fuseInsert cfg.rrfK0 cfg.wLex ChunkSource.lexical) m1
  List.insertionSort (fun a b => b.score ≤ a.score)
    (m2.map (fun e =>
      { e.chunk with
        score := e.score,
        source := if 1 < e.sources.length then ChunkSource.vector else e.chunk.source }))

/-- `hybridRetrieve` of `SearchService.ts` after both recalls returned:
an empty lexical result list short-circuits the RRF fusion. -/
def hybridRetrieve (cfg : SearchConfig) (vectorResults lexicalResults : List SChunk) :
    List SChunk :=
  if lexicalResults.isEmpty then vectorResults
  else fuse cfg vectorResults lexicalResults

/-- The candidate walk of `applySmartCutoff`: `i` is the 0-based position
in the sorted list, `pickedLen` the number already picked.  The safe-harbor
positions (`i < minK`) are only checked against the floor; later positions
must clear the dynamic threshold; the first reject stops the walk. -/
def pickLoop (minK maxK : ℕ) (floor dyn : ℚ) : List SChunk → ℕ → ℕ → List SChunk
  | [], _, _ => []
  | c :: rest, i, pickedLen =>
    if maxK ≤ pickedLen then []
    else if i < minK then
      if floor ≤ c.score then c :: pickLoop minK maxK floor dyn rest (i + 1) (pickedLen + 1)
      else []
    else if c.score < dyn then []
    else c :: pickLoop minK maxK floor dyn rest (i + 1) (pickedLen + 1)

/-- `dedupChunks`: keep the first occurrence of each `chunkKey`. -/
def dedupGo (seen : List String) : List SChunk → List SChunk
  | [] => []
  | c :: rest =>
    if seen.contains (chunkKey c) then dedupGo seen rest
    else c :: dedupGo (chunkKey c :: seen) rest

/-- `dedupChunks` of `SearchService.ts`. -/
def dedupChunks (l : List SChunk) : List SChunk :=
  dedupGo [] l

/-- The top-up loop of `applySmartCutoff`: refill from the sorted
candidates, floor-gated, key-deduplicated, until `min(minK, maxK)` chunks
are present. -/
def topUpLoop (minK maxK : ℕ) (floor : ℚ) : List SChunk → List SChunk → List SChunk
  | [], acc => acc
  | c :: rest, acc =>
    if min minK maxK ≤ acc.length then acc
    else if c.score < floor then acc
    else if (acc.map chunkKey).contains (chunkKey c) then topUpLoop minK maxK floor rest acc
    else topUpLoop minK maxK floor rest (acc ++ [c])

/-- `applySmartCutoff` of `SearchService.ts`. -/
def applySmartCutoff (cfg : SearchConfig) (candidates : List SChunk) : List SChunk :=
  if cfg.enableSmartTopK then
    match candidates with
    | [] => []
    | _ :: _ =>
      match sortByScoreDesc candidates with
      | [] => []
      | top :: sortedRest =>
        if top.score < cfg.smartMinScore then [top]
        else
          let ratioThreshold := top.score * cfg.smartTopScoreRatio
          let deltaThreshold := top.score - cfg.smartTopScoreDeltaAbs
          let dynamicThreshold := max cfg.smartMinScore (min ratioThreshold deltaThreshold)
          let picked :=
            pickLoop cfg.smartMinK cfg.smartMaxK cfg.smartMinScore dynamicThreshold
              (top :: sortedRest) 0 0
          let deduped := dedupChunks picked
          if deduped.length < min cfg.smartMinK cfg.smartMaxK then
            topUpLoop cfg.smartMinK cfg.smartMaxK cfg.smartMinScore (top :: sortedRest) deduped
          else deduped
  else candidates

end SearchService

namespace GraphExpander

open SearchService

/-- The fields of a stored `ChunkRecord` that E1 neighbor expansion reads. -/
structure ChunkRec where
  file_path : String
  chunk_index : ℤ
deriving DecidableEq, Repr

/-- The delta range of the neighbor loop: `-hops .. hops` without `0`, in
loop order. -/
def deltas (hops : ℕ) : List ℤ :=
  ((List.range (2 * hops + 1)).map (fun t => (t : ℤ) - hops)).filter (fun d => d ≠ 0)

/-- The `neighborIndices` set (a JS `Set`, insertion-ordered): indices
within `hops` of a seed that are not seeds themselves and exist in the
file's chunk map. -/
def collectNeighborIndices (hops : ℕ) (seedIndices chunkIndices : List ℤ)
    (fileSeeds : List SChunk) : List ℤ :=
  fileSeeds.foldl
    (fun acc seed =>
      (deltas hops).foldl
        (fun acc2 d =>
          let ni := seed.chunkIndex + d
          if seedIndices.contains ni = false ∧ chunkIndices.contains ni ∧
              acc2.contains ni = false then
            acc2 ++ [ni]
          else acc2)
        acc)
    []

/-- One step of the nearest-seed scan of `expandNeighbors`: keep the least
distance seen (`none` models the initial `Infinity`) and the best score
among the seeds at that distance. -/
def nearestStep (ni : ℤ) (st : Option ℕ × ℚ) (seed : SChunk) : Option ℕ × ℚ :=
  let d := (ni - seed.chunkIndex).natAbs
  match st.1 with
  | none => (some d, seed.score)
  | some md =>
    if d < md then (some d, seed.score)
    else if d = md ∧ st.2 < seed.score then (st.1, seed.score)
    else st

/-- The nearest-seed scan of `expandNeighbors` over the file's seeds
(initial state: `Infinity` distance, score `0`). -/
def nearestScan (fileSeeds : List SChunk) (ni : ℤ) : Option ℕ × ℚ :=
  fileSeeds.foldl (nearestStep ni) (none, 0)

/-- The per-file body of `expandNeighbors` (`GraphExpander.ts`): collect the
missing neighbor indices of the file's seeds and emit each with the decayed
score of its nearest seed.  `existingKeys` is the running dedup set of
`filePath#chunkIndex` keys. -/
def expandNeighborsFile (cfg : SearchConfig) (filePath : String)
    (fileSeeds : List SChunk) (allChunks : List ChunkRec)
    (existingKeys : List String) : List SChunk :=
  let sortedChunks := List.insertionSort (fun a b => a.chunk_index ≤ b.chunk_index) allChunks
  let chunkIndices := sortedChunks.map (fun c => c.chunk_index)
  let seedIndices := fileSeeds.map (fun s => s.chunkIndex)
  let neighborIndices :=
    collectNeighborIndices cfg.neighborHops seedIndices chunkIndices fileSeeds
  neighborIndices.filterMap (fun ni =>
    let key := filePath ++ "#" ++ toString ni
    if existingKeys.contains key then none
    else
      let st := nearestScan fileSeeds ni
      let decayedScore := st.2 * cfg.decayNeighbor ^ st.1.getD 0
      some { filePath := filePath, chunkIndex := ni, score := decayedScore,
             source := ChunkSource.neighbor, recDist := 0, rank := 0 })

/-- The maximum seed score within one file (the quantity named
`maxSeedScoreInFile` by the spec's E1 description). -/
def maxSeedScoreInFile (seeds : List SChunk) : ℚ :=
  (seeds.map (fun s => s.score)).foldr max 0

end GraphExpander

namespace VectorStore

/-- The key fields of a stored `ChunkRecord` (the whole record travels
through the store unchanged; the upsert logic only reads these). -/
structure ChunkRecord where
  chunk_id : String
  file_path : String
  file_hash : String
  chunk_index : ℤ
deriving DecidableEq, Repr

/-- A primitive LanceDB table operation issued by the store. -/
inductive VOp where
  | insertRecs (rs : List ChunkRecord)
  | deleteStale (conds : List (String × String))
  | deletePaths (paths : List String)
deriving DecidableEq, Repr

/-- The OR-joined WHERE clause
`(file_path = p AND file_hash != h) OR …` of the stale-version delete. -/
def matchesStale (conds : List (String × String)) (r : ChunkRecord) : Bool :=
  conds.any (fun c => r.file_path = c.1 ∧ r.file_hash ≠ c.2)

/-- Table semantics of one operation: `add` appends, the deletes filter. -/
def applyOp (s : List ChunkRecord) : VOp → List ChunkRecord
  | VOp.insertRecs rs => s ++ rs
  | VOp.deleteStale conds => s.filter (fun r => !(matchesStale conds r))
  | VOp.deletePaths ps => s.filter (fun r => !(ps.contains r.file_path))

/-- `upsertFile` of `vectorStore/index.ts` as its operation sequence:
insert the new records first, then delete
`file_path = p AND file_hash != newHash`; an empty record list degenerates
to `deleteFile`. -/
def upsertFileOps (p h : String) (records : List ChunkRecord) : List VOp :=
  if records.isEmpty then [VOp.deletePaths [p]]
  else [VOp.insertRecs records, VOp.deleteStale [(p, h)]]

/-- One entry of the `batchUpsertFiles` argument. -/
structure FileUpsert where
  path : String
  hash : String
  records : List ChunkRecord
deriving DecidableEq, Repr

/-- The batching loop of `batchUpsertFiles`: close the current batch when it
already holds 50 files or the next file would push it past 5000 records. -/
def buildBatchesGo : List FileUpsert → List FileUpsert → ℕ → List (List FileUpsert)
  | [], currentBatch, _ => if currentBatch.isEmpty then [] else [currentBatch]
  | f :: rest, currentBatch, currentRecordCount =>
    if 50 ≤ currentBatch.length ∨ 5000 < currentRecordCount + f.records.length then
      if currentBatch.isEmpty then buildBatchesGo rest [f] f.records.length
      else currentBatch :: buildBatchesGo rest [f] f.records.length
    else buildBatchesGo rest (currentBatch ++ [f]) (currentRecordCount + f.records.length)

/-- The sub-batches `batchUpsertFiles` processes in order. -/
def buildBatches (files : List FileUpsert) : List (List FileUpsert) :=
  buildBatchesGo files [] 0

/-- The operations of one sub-batch: all its records in one insert, then one
OR-joined stale delete; a record-less sub-batch degenerates to
`deleteFiles`. -/
def subBatchOps (batch : List FileUpsert) : List VOp :=
  let batchRecords := (batch.map (fun f => f.records)).flatten
  if batchRecords.isEmpty then [VOp.deletePaths (batch.map (fun f => f.path))]
  else
    [VOp.insertRecs batchRecords,
     VOp.deleteStale (batch.map (fun f => (f.path, f.hash)))]

/-- `batchUpsertFiles` as its full operation sequence. -/
def batchUpsertFilesOps (files : List FileUpsert) : List VOp :=
  if files.isEmpty then [] else ((buildBatches files).map subBatchOps).flatten

/-- All states the table passes through while executing `ops` from `s0`
(initial and final states included). -/
def runStates (s0 : List ChunkRecord) (ops : List VOp) : List (List ChunkRecord) :=
  ops.scanl applyOp s0

/-- The store holds at least one record for file `p`. -/
def hasRecordFor (p : String) (s : List ChunkRecord) : Prop :=
  ∃ r ∈ s, r.file_path = p

end VectorStore

namespace Db

/-- `FileMeta` of `src/db/index.ts` (the upsert writes all of these). -/
structure FileMeta where
  path : String
  hash : String
  mtime : ℤ
  size : ℤ
  content : Option String
  language : String
deriving DecidableEq, Repr

/-- A primitive SQLite write issued by the row store. -/
inductive DbWrite where
  | filesUpsert (m : FileMeta)
  | ftsDelete (p : String)
  | ftsInsert (p c : String)
deriving DecidableEq, Repr

/-- A write is against the `files` table (as opposed to `files_fts`). -/
def isFilesWrite : DbWrite → Bool
  | DbWrite.filesUpsert _ => true
  | _ => false

/-- The single transaction of `batchUpsertFileFts` (`fts.ts`): per file a
delete of the old `files_fts` row then an insert of the new one. -/
def batchUpsertFileFtsTx (files : List (String × String)) : List DbWrite :=
  (files.map (fun f => [DbWrite.ftsDelete f.1, DbWrite.ftsInsert f.1 f.2])).flatten

/-- `batchUpsert` of `db/index.ts` as the list of transactions it executes,
in order: one transaction with all `files` upserts, then — only after it
committed — the separate `batchUpsertFileFts` transaction over the files
with non-null content (skipped when there are none). -/
def batchUpsertTxs (files : List FileMeta) : List (List DbWrite) :=
  let tx1 := files.map DbWrite.filesUpsert
  let ftsFiles := files.filterMap (fun f => f.content.map (fun c => (f.path, c)))
  tx1 :: (if ftsFiles.isEmpty then [] else [batchUpsertFileFtsTx ftsFiles])

/-- Row-store state: the `files` table keyed by path and the `files_fts`
rows. -/
structure DbState where
  filesRows : List (String × FileMeta)
  ftsRows : List (String × String)
deriving DecidableEq, Repr

/-- `INSERT … ON CONFLICT(path) DO UPDATE`: replace in place or append. -/
def upsertAssoc : List (String × FileMeta) → String → FileMeta → List (String × FileMeta)
  | [], p, m => [(p, m)]
  | e :: rest, p, m => if e.1 = p then (p, m) :: rest else e :: upsertAssoc rest p m

/-- Semantics of one write. -/
def applyWrite (s : DbState) : DbWrite → DbState
  | DbWrite.filesUpsert m => { s with filesRows := upsertAssoc s.filesRows m.path m }
  | DbWrite.ftsDelete p => { s with ftsRows := s.ftsRows.filter (fun r => r.1 ≠ p) }
  | DbWrite.ftsInsert p c => { s with ftsRows := s.ftsRows ++ [(p, c)] }

/-- Apply a whole transaction. -/
def applyTx (s : DbState) (tx : List DbWrite) : DbState :=
  tx.foldl applyWrite s

end Db

namespace ContextPacker

/-- The fields of a `ScoredChunk` that `ContextPacker.pack` reads. -/
structure PChunk where
  filePath : String
  score : ℚ
  raw_start : ℕ
  raw_end : ℕ
  breadcrumb : String
deriving DecidableEq, Repr

/-- `Segment` of `src/search/types.ts`. -/
structure Segment where
  filePath : String
  rawStart : ℕ
  rawEnd : ℕ
  startLine : ℕ
  endLine : ℕ
  score : ℚ
  breadcrumb : String
  text : List Char
deriving DecidableEq, Repr

/-- `groupByFile`: a JS object with string keys preserves first-insertion
order of the keys, so the grouping is an ordered association list. -/
def groupInsert (acc : List (String × List PChunk)) (c : PChunk) :
    List (String × List PChunk) :=
  match acc with
  | [] => [(c.filePath, [c])]
  | e :: rest =>
    if e.1 = c.filePath then (e.1, e.2 ++ [c]) :: rest
    else e :: groupInsert rest c

/-- `groupByFile` of `ContextPacker.ts`. -/
def groupByFile (chunks : List PChunk) : List (String × List PChunk) :=
  chunks.foldl groupInsert []

/-- `Math.max(...fileChunks.map(c => c.score))` (groups are non-empty). -/
def maxScoreOf : List PChunk → ℚ
  | [] => 0
  | c :: rest => rest.foldl (fun m x => max m x.score) c.score

/-- A file group with its max score, as built before the per-file loop. -/
structure FileGroup where
  filePath : String
  chunks : List PChunk
  maxScore : ℚ
deriving DecidableEq, Repr

/-- An interval of the linear merge (`start`, `end`, running max score,
first-seen breadcrumb). -/
structure Interval where
  start : ℕ
  stop : ℕ
  score : ℚ
  breadcrumb : String
deriving DecidableEq, Repr

/-- The linear interval merge over chunks sorted by `raw_start`
(accumulator kept reversed so the last interval is at its head). -/
def mergeIntervalsGo (revAcc : List Interval) (c : PChunk) : List Interval :=
  match revAcc with
  | [] => [{ start := c.raw_start, stop := c.raw_end, score := c.score,
             breadcrumb := c.breadcrumb }]
  | last :: others =>
    if c.raw_start ≤ last.stop then
      { last with stop := max last.stop c.raw_end, score := max last.score c.score } :: others
    else
      { start := c.raw_start, stop := c.raw_end, score := c.score,
        breadcrumb := c.breadcrumb } :: last :: others

/-- `offsetToLine`: 1 plus the newlines strictly before `offset` (clamped
to the content length). -/
def offsetToLine (content : List Char) (offset : ℕ) : ℕ :=
  1 + ((content.take offset).filter (fun c => c == '\n')).length

/-- `mergeAndSlice` of `ContextPacker.ts`. -/
def mergeAndSlice (chunks : List PChunk) (content : List Char) : List Segment :=
  match chunks with
  | [] => []
  | c0 :: _ =>
    let sorted := List.insertionSort (fun a b => a.raw_start ≤ b.raw_start) chunks
    let intervals := (sorted.foldl mergeIntervalsGo []).reverse
    intervals.map (fun iv =>
      { filePath := c0.filePath, rawStart := iv.start, rawEnd := iv.stop,
        startLine := offsetToLine content iv.start,
        endLine := offsetToLine content iv.stop,
        score := iv.score, breadcrumb := iv.breadcrumb,
        text := sliceL content iv.start iv.stop })

/-- The per-file budget loop: a segment whose text would push the running
total past `maxTotal` stops the loop without being added. -/
def budgetLoop (maxTotal : ℕ) : List Segment → ℕ → List Segment × ℕ
  | [], total => ([], total)
  | seg :: rest, total =>
    if maxTotal < total + seg.text.length then ([], total)
    else
      let p := budgetLoop maxTotal rest (total + seg.text.length)
      (seg :: p.1, p.2)

/-- The per-file loop of `pack` (files already sorted by max score
descending; `contentOf` is the batch-loaded `files.content` column).  A
file whose content is missing or empty (JS falsiness of `''`) is skipped;
after a file the loop stops once the budget is reached. -/
def packGo (cfg : SearchService.SearchConfig) (contentOf : String → Option (List Char)) :
    List FileGroup → ℕ → List (String × List Segment)
  | [], _ => []
  | g :: rest, totalChars =>
    match contentOf g.filePath with
    | none => packGo cfg contentOf rest totalChars
    | some content =>
      if content.isEmpty then packGo cfg contentOf rest totalChars
      else
        let segments := mergeAndSlice g.chunks content
        let topSegments :=
          List.insertionSort (fun a b => a.rawStart ≤ b.rawStart)
            ((List.insertionSort (fun a b => b.score ≤ a.score) segments).take
              cfg.maxSegmentsPerFile)
        let p := budgetLoop cfg.maxTotalChars topSegments totalChars
        let tail :=
          if cfg.maxTotalChars ≤ p.2 then []
          else packGo cfg contentOf rest p.2
        if p.1.isEmpty then tail else (g.filePath, p.1) :: tail

/-- `ContextPacker.pack`. -/
def pack (cfg : SearchService.SearchConfig) (contentOf : String → Option (List Char))
    (chunks : List PChunk) : List (String × List Segment) :=
  match chunks with
  | [] => []
  | _ =>
    let sortedFiles :=
      List.insertionSort (fun a b => b.maxScore ≤ a.maxScore)
        ((groupByFile chunks).map (fun g =>
          { filePath := g.1, chunks := g.2, maxScore := maxScoreOf g.2 }))
    packGo cfg contentOf sortedFiles 0

/-- Total characters of all segments in a pack result. -/
def totalTextChars (res : List (String × List Segment)) : ℕ :=
  (res.map (fun f => ((f.2).map (fun s => s.text.length)).sum)).sum

end ContextPacker


namespace SemanticSplitter

/-- Two spans are adjacent: the second starts where the first stops. -/
def spanAdj (s1 s2 : Span) : Prop :=
  s2.start = s1.stop

instance : DecidableRel spanAdj := fun s1 s2 => decEq s2.start s1.stop

/-- Length of the longest common prefix of two paths, written independently
of the splitter's counting loop (the spec's formulation). -/
def specCommonPrefixLen (a b : List String) : ℕ :=
  ((a.zip b).takeWhile (fun q => q.1 == q.2)).length

/-- The merge condition exactly as the specification words it: a boundary
penalty of 1.0 when the context paths share a prefix at least as long as
the shorter path and 0.7 otherwise, scaling both the NWS budget (with the
tiny-window exception) and the raw budget. -/
def claimMergePred (cfg : SplitterConfig) (nws : ℕ → ℕ → ℕ)
    (current next : Window) : Prop :=
  let combinedNws : ℚ :=
    (current.size : ℚ) +
      (nws (lastNode current).endIndex (firstNode next).startIndex : ℚ) + (next.size : ℚ)
  let combinedRaw : ℚ :=
    ((lastNode next).endIndex : ℚ) - ((firstNode current).startIndex : ℚ)
  let penalty : ℚ :=
    if min current.contextPath.length next.contextPath.length ≤
        specCommonPrefixLen current.contextPath next.contextPath then 1.0 else 0.7
  (combinedNws ≤ cfg.maxChunkSize * penalty ∨
      ((current.size : ℚ) < cfg.minChunkSize ∧
        combinedNws < cfg.maxChunkSize * penalty * 1.5)) ∧
    combinedRaw ≤ cfg.maxRawChars * penalty

/-- Sum of `line.length + 1` over a list of lines (the index-space each
line occupies including its `'\n'`). -/
def tailLen (ls : List (List Char)) : ℕ :=
  (ls.map (fun l => l.length + 1)).sum

end SemanticSplitter

namespace Db

/-- A transaction touches the `files` table. -/
def touchesFiles (tx : List DbWrite) : Bool :=
  tx.any isFilesWrite

/-- A transaction touches the `files_fts` table. -/
def touchesFts (tx : List DbWrite) : Bool :=
  tx.any (fun w => !(isFilesWrite w))

end Db

namespace SearchService

/-- Multiply a candidate's score by `k`, keeping its key and every other
field. -/
def scaleChunk (k : ℚ) (c : SChunk) : SChunk :=
  { c with score := c.score * k }

/-- Scale the cutoff's absolute thresholds (`smartMinScore` and
`smartTopScoreDeltaAbs`) by `k`; the dimensionless ratio and the counts are
unchanged. -/
def scaleCfg (k : ℚ) (cfg : SearchConfig) : SearchConfig :=
  { cfg with smartMinScore := cfg.smartMinScore * k,
             smartTopScoreDeltaAbs := cfg.smartTopScoreDeltaAbs * k }

end SearchService


/-- Counterexample candidate for the cutoff scale-invariance claim: score
`0.2`, just below the default `smartMinScore`. -/
def cexA : SearchService.SChunk :=
  { filePath := "a", chunkIndex := 0, score := 1/5, source := SearchService.ChunkSource.vector,
    recDist := 0, rank := 0 }

/-- Second counterexample candidate: score `0.18`. -/
def cexB : SearchService.SChunk :=
  { filePath := "b", chunkIndex := 0, score := 9/50, source := SearchService.ChunkSource.vector,
    recDist := 0, rank := 1 }

/-- A concrete search chunk used to instantiate theorems at sample
inputs. -/
def wChunk (fp : String) (s : ℚ) : SearchService.SChunk :=
  { filePath := fp, chunkIndex := 0, score := s, source := SearchService.ChunkSource.vector,
    recDist := 0, rank := 0 }

/-- A concrete AST node (span `[0, 3)`). -/
def wNode : SemanticSplitter.Node :=
  { startIndex := 0, endIndex := 3, type := "t" }

/-- A concrete one-node window over `wNode`. -/
def wWin : SemanticSplitter.Window :=
  { nodes := [wNode], size := 3, contextPath := [] }

/-- A concrete new-version vector-store record for file `p`, hash `h`. -/
def wRecNew : VectorStore.ChunkRecord :=
  { chunk_id := "p#h#0", file_path := "p", file_hash := "h", chunk_index := 0 }

/-- A concrete old-version vector-store record for file `p`, hash `g`. -/
def wRecOld : VectorStore.ChunkRecord :=
  { chunk_id := "p#g#0", file_path := "p", file_hash := "g", chunk_index := 0 }

/-- A concrete one-file batch entry carrying `wRecNew`. -/
def wFile : VectorStore.FileUpsert :=
  { path := "p", hash := "h", records := [wRecNew] }

/-- A concrete file row with non-null content. -/
def wFileMeta : Db.FileMeta :=
  { path := "p", hash := "h", mtime := 0, size := 1, content := some "c", language := "ts" }

/-! ## Theorems -/

section C10Support

open SearchService

lemma mem_mapIdxFrom (f : ℕ → VecRaw → SChunk) :
    ∀ (l : List VecRaw) (i : ℕ) (c : SChunk), c ∈ mapIdxFrom f i l →
      ∃ j r, r ∈ l ∧ c = f j r := by
  intro l
  induction l with
  | nil => intro i c hc; simp [mapIdxFrom] at hc
  | cons r rest ih =>
    intro i c hc
    simp only [mapIdxFrom, List.mem_cons] at hc
    rcases hc with hc | hc
    · exact ⟨i, r, by simp, hc⟩
    · obtain ⟨j, r', hr', hcr⟩ := ih (i + 1) c hc
      exact ⟨j, r', by simp [hr'], hcr⟩

end C10Support

/-- C10: when the lexical recall branch returns no results, hybrid
retrieval skips RRF fusion and hands back the vector-branch list unchanged,
whose scores are the raw similarities `1 / (1 + distance)` of each
candidate's record. -/
theorem hybridRetrieve_skips_fusion_on_empty_lexical
    (cfg : SearchService.SearchConfig) (raw : Option (List SearchService.VecRaw)) :
    SearchService.hybridRetrieve cfg (SearchService.vectorRetrieve cfg raw) [] =
        SearchService.vectorRetrieve cfg raw ∧
      ∀ c ∈ SearchService.vectorRetrieve cfg raw, c.score = 1 / (1 + c.recDist) := by
  constructor
  · simp [SearchService.hybridRetrieve]
  · intro c hc
    match raw with
    | none => simp [SearchService.vectorRetrieve] at hc
    | some rs =>
      simp only [SearchService.vectorRetrieve] at hc
      obtain ⟨j, r, _, hcr⟩ := mem_mapIdxFrom _ _ _ _ hc
      subst hcr
      rfl

section C9Support

open ContextPacker SearchService

lemma budgetLoop_spec (maxTotal : ℕ) :
    ∀ (segs : List Segment) (total : ℕ), total ≤ maxTotal →
      (budgetLoop maxTotal segs total).2 ≤ maxTotal ∧
        (budgetLoop maxTotal segs total).2 =
          total + (((budgetLoop maxTotal segs total).1.map (fun s => s.text.length)).sum) := by
  intro segs
  induction segs with
  | nil => intro total h; simp [budgetLoop, h]
  | cons seg rest ih =>
    intro total h
    by_cases hover : maxTotal < total + seg.text.length
    · simp [budgetLoop, hover, h]
    · push_neg at hover
      have := ih (total + seg.text.length) hover
      simp only [budgetLoop, if_neg (not_lt.mpr hover)]
      refine ⟨this.1, ?_⟩
      simp only [List.map_cons, List.sum_cons]
      omega

lemma totalTextChars_cons (fp : String) (segs : List Segment)
    (rest : List (String × List Segment)) :
    totalTextChars ((fp, segs) :: rest) =
      (segs.map (fun s => s.text.length)).sum + totalTextChars rest := by
  simp [totalTextChars]

lemma packGo_budget (cfg : SearchConfig) (contentOf : String → Option (List Char)) :
    ∀ (groups : List FileGroup) (total : ℕ), total ≤ cfg.maxTotalChars →
      total + totalTextChars (packGo cfg contentOf groups total) ≤ cfg.maxTotalChars := by
  intro groups
  induction groups with
  | nil => intro total h; simp [packGo, totalTextChars, h]
  | cons g rest ih =>
    intro total h
    simp only [packGo]
    match hco : contentOf g.filePath with
    | none => exact ih total h
    | some content =>
      by_cases hce : content.isEmpty
      · simp only [hce, if_true]
        exact ih total h
      · simp only [Bool.not_eq_true] at hce
        simp only [hce, Bool.false_eq_true, if_false]
        set topSegments :=
          List.insertionSort (fun a b => a.rawStart ≤ b.rawStart)
            ((List.insertionSort (fun a b => b.score ≤ a.score)
              (mergeAndSlice g.chunks content)).take cfg.maxSegmentsPerFile) with htop
        obtain ⟨h1, h2⟩ := budgetLoop_spec cfg.maxTotalChars topSegments total h
        by_cases hstop : cfg.maxTotalChars ≤ (budgetLoop cfg.maxTotalChars topSegments total).2
        · simp only [hstop, if_true]
          by_cases hemp : (budgetLoop cfg.maxTotalChars topSegments total).1.isEmpty
          · simp [hemp, totalTextChars, h]
          · simp only [Bool.not_eq_true] at hemp
            simp only [hemp, Bool.false_eq_true, if_false]
            rw [totalTextChars_cons]
            simp only [totalTextChars, List.map_nil, List.sum_nil]
            omega
        · simp only [hstop, if_false]
          have hrec := ih (budgetLoop cfg.maxTotalChars topSegments total).2 h1
          by_cases hemp : (budgetLoop cfg.maxTotalChars topSegments total).1.isEmpty
          · simp only [hemp, if_true]
            omega
          · simp only [Bool.not_eq_true] at hemp
            simp only [hemp, Bool.false_eq_true, if_false]
            rw [totalTextChars_cons]
            omega

end C9Support

/-- C9: the total number of characters over all segments returned by
`ContextPacker.pack` never exceeds the `maxTotalChars` budget (48 000 under
the default configuration): the budget loop refuses a segment that would
push the running total past the budget instead of adding it first. -/
theorem pack_total_chars_within_budget
    (contentOf : String → Option (List Char)) (chunks : List ContextPacker.PChunk) :
    ContextPacker.totalTextChars
        (ContextPacker.pack SearchService.DEFAULT_CONFIG contentOf chunks) ≤ 48000 := by
  match chunks with
  | [] => simp [ContextPacker.pack, ContextPacker.totalTextChars]
  | c :: cs =>
    have h := packGo_budget SearchService.DEFAULT_CONFIG contentOf
      (List.insertionSort (fun a b => b.maxScore ≤ a.maxScore)
        ((ContextPacker.groupByFile (c :: cs)).map (fun g =>
          { filePath := g.1, chunks := g.2, maxScore := ContextPacker.maxScoreOf g.2 })))
      0 (by simp [SearchService.DEFAULT_CONFIG])
    simpa [ContextPacker.pack, SearchService.DEFAULT_CONFIG] using h

section C8Support

open SearchService

lemma sortByScoreDesc_nonempty (l : List SChunk) (hne : l ≠ []) :
    sortByScoreDesc l ≠ [] := by
  intro h
  have := (List.perm_insertionSort (fun a b => b.score ≤ a.score) l).length_eq
  rw [sortByScoreDesc] at h
  rw [h] at this
  exact hne (List.length_eq_zero.mp this.symm)

lemma sortByScoreDesc_head_max :
    ∀ (l : List SChunk) (t : SChunk) (rest : List SChunk),
      sortByScoreDesc l = t :: rest → ∀ x ∈ l, x.score ≤ t.score := by
  intro l
  induction l with
  | nil => intro t rest h; simp [sortByScoreDesc, List.insertionSort] at h
  | cons a l' ih =>
    intro t rest h x hx
    rw [sortByScoreDesc, List.insertionSort] at h
    match hs : List.insertionSort (fun a b => b.score ≤ a.score) l' with
    | [] =>
      rw [hs] at h
      simp only [List.orderedInsert] at h
      have hl' : l' = [] := by
        have := (List.perm_insertionSort (fun a b => b.score ≤ a.score) l').length_eq
        rw [hs] at this
        exact List.length_eq_zero.mp this.symm
      subst hl'
      rcases List.mem_singleton.mp hx with hxa
      cases h
      exact le_of_eq (congrArg SChunk.score hxa)
    | b :: bs =>
      rw [hs] at h
      have ihb : ∀ y ∈ l', y.score ≤ b.score := ih b bs hs
      simp only [List.orderedInsert] at h
      by_cases hab : b.score ≤ a.score
      · rw [if_pos hab] at h
        have hta : t = a := by cases h; rfl
        subst hta
        rcases List.mem_cons.mp hx with hxa | hxl
        · exact le_of_eq (congrArg SChunk.score hxa)
        · exact le_trans (ihb x hxl) hab
      · rw [if_neg hab] at h
        have htb : t = b := by cases h; rfl
        subst htb
        rcases List.mem_cons.mp hx with hxa | hxl
        · exact le_of_lt (by rw [hxa]; exact lt_of_not_le hab)
        · exact ihb x hxl

lemma sortByScoreDesc_head_mem (l : List SChunk) (t : SChunk) (rest : List SChunk)
    (h : sortByScoreDesc l = t :: rest) : t ∈ l := by
  have : t ∈ sortByScoreDesc l := by rw [h]; exact List.mem_cons_self t rest
  rw [sortByScoreDesc] at this
  exact (List.mem_insertionSort _).mp this

end C8Support

/-- C8: with smart top-K enabled (the default) and a non-empty candidate
list whose highest rerank score lies strictly below `smartMinScore` (0.25),
`applySmartCutoff` returns exactly the singleton top-scored candidate. -/
theorem applySmartCutoff_below_floor_returns_top
    (l : List SearchService.SChunk) (hne : l ≠ [])
    (hall : ∀ x ∈ l, x.score < SearchService.DEFAULT_CONFIG.smartMinScore) :
    ∃ t, SearchService.applySmartCutoff SearchService.DEFAULT_CONFIG l = [t] ∧
      t ∈ l ∧ ∀ x ∈ l, x.score ≤ t.score := by
  match hl : l with
  | [] => exact absurd rfl hne
  | a :: l' =>
    match hs : SearchService.sortByScoreDesc (a :: l') with
    | [] => exact absurd hs (sortByScoreDesc_nonempty _ (by simp))
    | t :: rest =>
      have ht_mem : t ∈ a :: l' := sortByScoreDesc_head_mem _ _ _ hs
      have ht_max : ∀ x ∈ a :: l', x.score ≤ t.score := sortByScoreDesc_head_max _ _ _ hs
      have ht_floor : t.score < SearchService.DEFAULT_CONFIG.smartMinScore := hall t ht_mem
      refine ⟨t, ?_, ht_mem, ht_max⟩
      simp only [SearchService.applySmartCutoff]
      rw [show SearchService.DEFAULT_CONFIG.enableSmartTopK = true from rfl]
      simp only [if_true]
      rw [hs]
      exact if_pos ht_floor

section C2Support

open SemanticSplitter

lemma commonLen_eq_spec : ∀ a b : List String, commonLen a b = specCommonPrefixLen a b := by
  intro a
  induction a with
  | nil => intro b; cases b <;> simp [commonLen, specCommonPrefixLen]
  | cons x xs ih =>
    intro b
    cases b with
    | nil => simp [commonLen, specCommonPrefixLen]
    | cons y ys =>
      by_cases hxy : x = y
      · have hb : (x == y) = true := beq_iff_eq.mpr hxy
        simp [commonLen, specCommonPrefixLen, hxy, List.takeWhile, hb, List.zip, ih ys]
      · have hb : (x == y) = false := beq_eq_false_iff_ne.mpr hxy
        simp [commonLen, specCommonPrefixLen, hxy, List.takeWhile, hb]

end C2Support

/-- C2: in the sibling-merge scan the boundary penalty is 1.0 when the two
windows' context paths share a common prefix at least as long as the
shorter path and 0.7 otherwise, and the pair merges exactly when
`combinedNws ≤ maxChunkSize·penalty` (or the current window is tinier than
`minChunkSize` and `combinedNws < 1.5·maxChunkSize·penalty`) and
`combinedRaw ≤ maxRawChars·penalty`. -/
theorem mergeAdjacentWindows_merge_decision
    (cfg : SemanticSplitter.SplitterConfig) (nws : ℕ → ℕ → ℕ)
    (current next : SemanticSplitter.Window) :
    SemanticSplitter.shouldMergeWindows cfg nws current next = true ↔
      SemanticSplitter.claimMergePred cfg nws current next := by
  simp only [SemanticSplitter.shouldMergeWindows, SemanticSplitter.claimMergePred,
    SemanticSplitter.isSameContext, commonLen_eq_spec, Bool.and_eq_true, Bool.or_eq_true,
    decide_eq_true_eq]
  by_cases hsc :
      min current.contextPath.length next.contextPath.length ≤
        SemanticSplitter.specCommonPrefixLen current.contextPath next.contextPath
  · simp only [hsc, if_true]
    push_cast
    constructor
    · rintro ⟨h1, h2⟩
      exact ⟨h1.imp (fun h => by linarith) (fun h => ⟨h.1, by linarith⟩), by linarith⟩
    · rintro ⟨h1, h2⟩
      exact ⟨h1.imp (fun h => by linarith) (fun h => ⟨h.1, by linarith⟩), by linarith⟩
  · simp only [hsc, if_false]
    push_cast
    constructor
    · rintro ⟨h1, h2⟩
      exact ⟨h1.imp (fun h => by linarith) (fun h => ⟨h.1, by linarith⟩), by linarith⟩
    · rintro ⟨h1, h2⟩
      exact ⟨h1.imp (fun h => by linarith) (fun h => ⟨h.1, by linarith⟩), by linarith⟩

section C7Support

open SemanticSplitter

lemma overlapSearch_le (nws : ℕ → ℕ → ℕ) (start : ℕ) (target : ℚ) (bound : ℤ) :
    ∀ low high res, res ≤ bound → high ≤ bound →
      overlapSearch nws start target low high res ≤ bound := by
  intro low high res
  induction low, high, res using SemanticSplitter.overlapSearch.induct nws start target with
  | case1 low high res hlh mid htest ih =>
    intro hres hhigh
    rw [overlapSearch, dif_pos hlh, if_pos htest]
    exact ih (by omega) hhigh
  | case2 low high res hlh mid htest ih =>
    intro hres hhigh
    rw [overlapSearch, dif_pos hlh, if_neg htest]
    exact ih hres (by omega)
  | case3 low high res hlh =>
    intro hres _
    rw [overlapSearch, dif_neg hlh]
    exact hres

lemma findOverlapStart_le (nws : ℕ → ℕ → ℕ) (start : ℕ) (target : ℚ) :
    findOverlapStart nws start target ≤ start := by
  rw [findOverlapStart]
  by_cases h : start = 0 ∨ target ≤ 0
  · rw [if_pos h]
  · rw [if_neg h]
    have hr : overlapSearch nws start target 0 (start : ℤ) (start : ℤ) ≤ (start : ℤ) :=
      overlapSearch_le nws start target (start : ℤ) 0 (start : ℤ) (start : ℤ) le_rfl le_rfl
    omega

lemma emitChunk_vectorSpan (cfg : SplitterConfig) (nws : ℕ → ℕ → ℕ)
    (fileEnd : ℕ) (hmrc : 0 ≤ cfg.maxRawChars) (w : Window) (prevEnd i : ℕ)
    (isLast : Bool) :
    (emitChunk cfg nws fileEnd w prevEnd i isLast).vectorSpan.stop =
        (emitChunk cfg nws fileEnd w prevEnd i isLast).endIndex ∧
      (emitChunk cfg nws fileEnd w prevEnd i isLast).vectorSpan.start ≤
        (emitChunk cfg nws fileEnd w prevEnd i isLast).startIndex ∧
      ((emitChunk cfg nws fileEnd w prevEnd i isLast).startIndex : ℚ) -
          ((emitChunk cfg nws fileEnd w prevEnd i isLast).vectorSpan.start : ℚ) ≤
        0.25 * cfg.maxRawChars := by
  have hvs : (emitChunk cfg nws fileEnd w prevEnd i isLast).vectorSpan.start =
      (if 0 < i ∧ 0 < cfg.chunkOverlap then
        (if (((firstNode w).startIndex -
              findOverlapStart nws (firstNode w).startIndex cfg.chunkOverlap : ℕ) : ℚ) ≤
            cfg.maxRawChars * 0.25 then
          findOverlapStart nws (firstNode w).startIndex cfg.chunkOverlap
        else (firstNode w).startIndex)
      else (firstNode w).startIndex) := rfl
  have hsi : (emitChunk cfg nws fileEnd w prevEnd i isLast).startIndex =
      (firstNode w).startIndex := rfl
  refine ⟨rfl, ?_, ?_⟩ <;> rw [hvs, hsi]
  · by_cases hov : 0 < i ∧ 0 < cfg.chunkOverlap
    · rw [if_pos hov]
      by_cases hkeep :
          (((firstNode w).startIndex -
              findOverlapStart nws (firstNode w).startIndex cfg.chunkOverlap : ℕ) : ℚ) ≤
            cfg.maxRawChars * 0.25
      · rw [if_pos hkeep]
        exact findOverlapStart_le _ _ _
      · rw [if_neg hkeep]
    · rw [if_neg hov]
  · by_cases hov : 0 < i ∧ 0 < cfg.chunkOverlap
    · rw [if_pos hov]
      set cand := findOverlapStart nws (firstNode w).startIndex cfg.chunkOverlap with hcand
      have hcle : cand ≤ (firstNode w).startIndex := findOverlapStart_le _ _ _
      by_cases hkeep :
          (((firstNode w).startIndex - cand : ℕ) : ℚ) ≤ cfg.maxRawChars * 0.25
      · rw [if_pos hkeep]
        have hcast : ((firstNode w).startIndex : ℚ) - (cand : ℚ) =
            (((firstNode w).startIndex - cand : ℕ) : ℚ) := by
          push_cast [hcle]
          ring
        rw [hcast]
        linarith
      · rw [if_neg hkeep]
        simp only [sub_self]
        linarith
    · rw [if_neg hov]
      simp only [sub_self]
      linarith

lemma windowsToChunksGo_vectorSpan (cfg : SplitterConfig) (nws : ℕ → ℕ → ℕ)
    (fileEnd : ℕ) (hmrc : 0 ≤ cfg.maxRawChars) :
    ∀ (ws : List Window) (prevEnd i : ℕ),
      ∀ c ∈ windowsToChunksGo cfg nws fileEnd ws prevEnd i,
        c.vectorSpan.stop = c.endIndex ∧ c.vectorSpan.start ≤ c.startIndex ∧
          (c.startIndex : ℚ) - (c.vectorSpan.start : ℚ) ≤ 0.25 * cfg.maxRawChars := by
  intro ws
  induction ws with
  | nil => intro prevEnd i c hc; simp [windowsToChunksGo] at hc
  | cons w rest ih =>
    intro prevEnd i c hc
    simp only [windowsToChunksGo, List.mem_cons] at hc
    rcases hc with hc | hc
    · subst hc
      exact emitChunk_vectorSpan cfg nws fileEnd hmrc w prevEnd i rest.isEmpty
    · exact ih _ _ c hc

end C7Support

/-- C7: every chunk's `vectorSpan` ends at `endIndex`, starts no later than
`startIndex`, extends backwards by at most `0.25·maxRawChars` raw
characters (an overlap candidate that would extend further is discarded),
and the first chunk is never extended. -/
theorem windowsToChunks_vectorSpan_bounds
    (cfg : SemanticSplitter.SplitterConfig) (nws : ℕ → ℕ → ℕ) (fileEnd : ℕ)
    (windows : List SemanticSplitter.Window) (hmrc : 0 ≤ cfg.maxRawChars) :
    (∀ c ∈ SemanticSplitter.windowsToChunks cfg nws fileEnd windows,
        c.vectorSpan.stop = c.endIndex ∧ c.vectorSpan.start ≤ c.startIndex ∧
          (c.startIndex : ℚ) - (c.vectorSpan.start : ℚ) ≤ 0.25 * cfg.maxRawChars) ∧
      ∀ c rest, SemanticSplitter.windowsToChunks cfg nws fileEnd windows = c :: rest →
        c.vectorSpan.start = c.startIndex := by
  constructor
  · intro c hc
    match windows with
    | [] => simp [SemanticSplitter.windowsToChunks] at hc
    | w :: ws =>
      exact windowsToChunksGo_vectorSpan cfg nws fileEnd hmrc (w :: ws) 0 0 c hc
  · intro c rest hc
    match windows with
    | [] => simp [SemanticSplitter.windowsToChunks] at hc
    | w :: ws =>
      simp only [SemanticSplitter.windowsToChunks, SemanticSplitter.windowsToChunksGo] at hc
      injection hc with h1 h2
      rw [← h1]
      have hno : ¬ (0 < 0 ∧ 0 < cfg.chunkOverlap) := fun h => lt_irrefl 0 h.1
      simp [SemanticSplitter.emitChunk, hno]

section C1Support

open SemanticSplitter

lemma sliceL_append (l : List Char) (a e b : ℕ) (h1 : a ≤ e) (h2 : e ≤ b) :
    sliceL l a e ++ sliceL l e b = sliceL l a b := by
  unfold sliceL
  have hd : l.drop e = (l.drop a).drop (e - a) := by
    rw [List.drop_drop]
    congr 1
    omega
  rw [hd, ← List.take_add]
  congr 1
  omega

lemma sliceL_zero_length (l : List Char) : sliceL l 0 l.length = l := by
  simp [sliceL]

lemma chain_start_le_stop (l : List Char) :
    ∀ (spans : List Span) (s : Span) (b : ℕ),
      List.Chain' spanAdj (s :: spans) →
      (∀ t ∈ s :: spans, t.start ≤ t.stop) →
      ((s :: spans).map Span.stop).getLast? = some b →
      s.start ≤ b := by
  intro spans
  induction spans with
  | nil =>
    intro s b _ hle hlast
    simp only [List.map_cons, List.map_nil] at hlast
    have : s.stop = b := by simpa using hlast
    exact this ▸ hle s (by simp)
  | cons s2 rest ih =>
    intro s b hch hle hlast
    have hadj : s2.start = s.stop := (List.chain'_cons.mp hch).1
    have h2 : s2.start ≤ b := by
      refine ih s2 b (List.chain'_cons.mp hch).2 (fun t ht => hle t (List.mem_cons_of_mem _ ht)) ?_
      rw [List.map_cons, List.map_cons, List.getLast?_cons_cons] at hlast
      simpa using hlast
    have h1 : s.start ≤ s.stop := hle s (by simp)
    omega

lemma join_slices (l : List Char) :
    ∀ (spans : List Span) (s : Span) (b : ℕ),
      List.Chain' spanAdj (s :: spans) →
      (∀ t ∈ s :: spans, t.start ≤ t.stop) →
      ((s :: spans).map Span.stop).getLast? = some b →
      ((s :: spans).map (fun t => sliceL l t.start t.stop)).flatten = sliceL l s.start b := by
  intro spans
  induction spans with
  | nil =>
    intro s b _ _ hlast
    have : s.stop = b := by simpa using hlast
    simp [this]
  | cons s2 rest ih =>
    intro s b hch hle hlast
    have hadj : s2.start = s.stop := (List.chain'_cons.mp hch).1
    have hlast2 : ((s2 :: rest).map Span.stop).getLast? = some b := by
      rw [List.map_cons, List.map_cons, List.getLast?_cons_cons] at hlast
      simpa using hlast
    have hrec := ih s2 b (List.chain'_cons.mp hch).2
      (fun t ht => hle t (List.mem_cons_of_mem _ ht)) hlast2
    have h1 : s.start ≤ s.stop := hle s (by simp)
    have h2 : s.stop ≤ b := by
      have := chain_start_le_stop l (rest) s2 b (List.chain'_cons.mp hch).2
        (fun t ht => hle t (List.mem_cons_of_mem _ ht)) hlast2
      omega
    calc ((s :: s2 :: rest).map (fun t => sliceL l t.start t.stop)).flatten
        = sliceL l s.start s.stop ++
            ((s2 :: rest).map (fun t => sliceL l t.start t.stop)).flatten := by simp
      _ = sliceL l s.start s.stop ++ sliceL l s.stop b := by rw [hrec, hadj]
      _ = sliceL l s.start b := sliceL_append l _ _ _ h1 h2

lemma go_ne_nil (cfg : SplitterConfig) (nws : ℕ → ℕ → ℕ) (fileEnd : ℕ)
    (w : Window) (rest : List Window) (prevEnd i : ℕ) :
    windowsToChunksGo cfg nws fileEnd (w :: rest) prevEnd i ≠ [] := by
  simp [windowsToChunksGo]

lemma go_head_start (cfg : SplitterConfig) (nws : ℕ → ℕ → ℕ) (fileEnd : ℕ)
    (w : Window) (rest : List Window) (prevEnd i : ℕ) (c : ChunkMeta)
    (h : (windowsToChunksGo cfg nws fileEnd (w :: rest) prevEnd i).head? = some c) :
    c.rawSpan.start = prevEnd := by
  simp only [windowsToChunksGo, List.head?_cons, Option.some.injEq] at h
  rw [← h]
  rfl

lemma go_chain (cfg : SplitterConfig) (nws : ℕ → ℕ → ℕ) (fileEnd : ℕ) :
    ∀ (rest : List Window) (w : Window) (prevEnd i : ℕ),
      List.Chain' spanAdj
        ((windowsToChunksGo cfg nws fileEnd (w :: rest) prevEnd i).map ChunkMeta.rawSpan) := by
  intro rest
  induction rest with
  | nil => intro w prevEnd i; simp [windowsToChunksGo]
  | cons w2 rest2 ih =>
    intro w prevEnd i
    rw [show windowsToChunksGo cfg nws fileEnd (w :: w2 :: rest2) prevEnd i =
      emitChunk cfg nws fileEnd w prevEnd i false ::
        windowsToChunksGo cfg nws fileEnd (w2 :: rest2) (windowEnd w) (i + 1) from rfl,
      List.map_cons]
    refine List.chain'_cons'.mpr ⟨?_, ih w2 (windowEnd w) (i + 1)⟩
    intro sp hsp
    match hgo : windowsToChunksGo cfg nws fileEnd (w2 :: rest2) (windowEnd w) (i + 1) with
    | [] => exact absurd hgo (go_ne_nil cfg nws fileEnd w2 rest2 _ _)
    | c2 :: cs2 =>
      rw [hgo] at hsp
      simp only [List.map_cons, List.head?_cons, Option.mem_some_iff] at hsp
      show sp.start = (emitChunk cfg nws fileEnd w prevEnd i false).rawSpan.stop
      rw [← hsp]
      exact go_head_start cfg nws fileEnd w2 rest2 (windowEnd w) (i + 1) c2 (by rw [hgo]; rfl)

lemma go_last_stop (cfg : SplitterConfig) (nws : ℕ → ℕ → ℕ) (fileEnd : ℕ) :
    ∀ (rest : List Window) (w : Window) (prevEnd i : ℕ),
      ((windowsToChunksGo cfg nws fileEnd (w :: rest) prevEnd i).map
        (fun x => x.rawSpan.stop)).getLast? = some fileEnd := by
  intro rest
  induction rest with
  | nil => intro w prevEnd i; simp [windowsToChunksGo, emitChunk]
  | cons w2 rest2 ih =>
    intro w prevEnd i
    rw [show windowsToChunksGo cfg nws fileEnd (w :: w2 :: rest2) prevEnd i =
      emitChunk cfg nws fileEnd w prevEnd i false ::
        windowsToChunksGo cfg nws fileEnd (w2 :: rest2) (windowEnd w) (i + 1) from rfl,
      List.map_cons]
    match hgo : windowsToChunksGo cfg nws fileEnd (w2 :: rest2) (windowEnd w) (i + 1) with
    | [] => exact absurd hgo (go_ne_nil cfg nws fileEnd w2 rest2 _ _)
    | c2 :: cs2 =>
      rw [List.map_cons, List.getLast?_cons_cons]
      have := ih w2 (windowEnd w) (i + 1)
      rw [hgo, List.map_cons] at this
      exact this

lemma go_bounds (cfg : SplitterConfig) (nws : ℕ → ℕ → ℕ) (fileEnd : ℕ) :
    ∀ (rest : List Window) (w : Window) (prevEnd i : ℕ),
      prevEnd ≤ windowEnd w →
      List.Chain' (fun w1 w2 => windowEnd w1 ≤ windowEnd w2) (w :: rest) →
      (∀ u ∈ w :: rest, windowEnd u ≤ fileEnd) →
      ∀ t ∈ (windowsToChunksGo cfg nws fileEnd (w :: rest) prevEnd i).map ChunkMeta.rawSpan,
        t.start ≤ t.stop := by
  intro rest
  induction rest with
  | nil =>
    intro w prevEnd i h1 _ h3 t ht
    simp only [windowsToChunksGo, List.map_cons, List.map_nil, List.mem_singleton] at ht
    subst ht
    show prevEnd ≤ (emitChunk cfg nws fileEnd w prevEnd i [].isEmpty).rawSpan.stop
    exact le_trans h1 (h3 w (by simp))
  | cons w2 rest2 ih =>
    intro w prevEnd i h1 h2 h3 t ht
    have hmono : windowEnd w ≤ windowEnd w2 := (List.chain'_cons.mp h2).1
    rw [show windowsToChunksGo cfg nws fileEnd (w :: w2 :: rest2) prevEnd i =
      emitChunk cfg nws fileEnd w prevEnd i false ::
        windowsToChunksGo cfg nws fileEnd (w2 :: rest2) (windowEnd w) (i + 1) from rfl,
      List.map_cons] at ht
    rcases List.mem_cons.mp ht with hh | hh
    · subst hh
      exact h1
    · exact ih w2 (windowEnd w) (i + 1) hmono (List.chain'_cons.mp h2).2
        (fun u hu => h3 u (List.mem_cons_of_mem _ hu)) t hh

lemma joinLen_cons_cons (x y : List Char) (rest : List (List Char)) :
    joinLen (x :: y :: rest) = x.length + 1 + joinLen (y :: rest) := by
  simp only [joinLen, joinNl, List.length_append, List.length_cons]
  omega

lemma joinLen_append_singleton :
    ∀ (cl : List (List Char)), cl ≠ [] → ∀ line,
      joinLen (cl ++ [line]) = joinLen cl + 1 + line.length := by
  intro cl
  induction cl with
  | nil => intro h; exact absurd rfl h
  | cons x cl' ih =>
    intro _ line
    cases cl' with
    | nil =>
      show joinLen [x, line] = joinLen [x] + 1 + line.length
      simp only [joinLen, joinNl, List.length_append, List.length_cons]
      omega
    | cons y rest =>
      rw [show (x :: y :: rest) ++ [line] = x :: y :: (rest ++ [line]) from rfl]
      rw [joinLen_cons_cons, joinLen_cons_cons]
      have h2 := ih (by simp) line
      rw [show (y :: rest) ++ [line] = y :: (rest ++ [line]) from rfl] at h2
      omega

lemma tailLen_cons (x : List Char) (rest : List (List Char)) :
    tailLen (x :: rest) = x.length + 1 + tailLen rest := by
  simp [tailLen]

lemma joinLen_add_one_eq_tailLen :
    ∀ (lines : List (List Char)), lines ≠ [] → joinLen lines + 1 = tailLen lines := by
  intro lines
  induction lines with
  | nil => intro h; exact absurd rfl h
  | cons x rest ih =>
    intro _
    cases rest with
    | nil => simp [joinLen, joinNl, tailLen]
    | cons y rest2 =>
      rw [joinLen_cons_cons, tailLen_cons, ← ih (by simp)]
      omega

lemma fallbackGo_spans (cfg : SplitterConfig) (fp : String) (codeLen : ℕ) :
    ∀ (restLines : List (List Char)) (lineStart : ℕ) (currentLines : List (List Char))
      (currentSize chunkStart : ℕ),
      currentLines ≠ [] →
      chunkStart + joinLen currentLines + 1 = lineStart →
      lineStart + tailLen restLines = codeLen + 1 →
      ∃ c cs,
        fallbackGo cfg codeLen fp restLines lineStart currentLines currentSize
            chunkStart chunkStart = c :: cs ∧
        c.rawSpan.start = chunkStart ∧
        List.Chain' spanAdj ((c :: cs).map ChunkMeta.rawSpan) ∧
        ((c :: cs).map (fun x => x.rawSpan.stop)).getLast? = some codeLen ∧
        ∀ t ∈ (c :: cs).map ChunkMeta.rawSpan, t.start ≤ t.stop := by
  intro restLines
  induction restLines with
  | nil =>
    intro lineStart currentLines currentSize chunkStart hne hpos hcode
    have hie : currentLines.isEmpty = false := by
      cases currentLines with
      | nil => exact absurd rfl hne
      | cons a b => rfl
    refine ⟨{ startIndex := chunkStart, endIndex := chunkStart + joinLen currentLines,
              rawSpan := { start := chunkStart, stop := codeLen },
              vectorSpan := { start := chunkStart, stop := chunkStart + joinLen currentLines },
              contextPath := [fp] }, [], ?_, rfl, by simp, by simp, ?_⟩
    · simp only [fallbackGo, hie, Bool.false_eq_true, if_false]
    · intro t ht
      simp only [List.map_cons, List.map_nil, List.mem_singleton] at ht
      subst ht
      show chunkStart ≤ codeLen
      simp only [tailLen, List.map_nil, List.sum_nil, Nat.add_zero] at hcode
      omega
  | cons line rest ih =>
    intro lineStart currentLines currentSize chunkStart hne hpos hcode
    have hie : ¬ currentLines.isEmpty = true := by
      cases currentLines with
      | nil => exact absurd rfl hne
      | cons a b => simp
    have hcode' : (lineStart + line.length + 1) + tailLen rest = codeLen + 1 := by
      rw [tailLen_cons] at hcode
      omega
    by_cases hbudget : cfg.maxChunkSize < ((currentSize + countNws line : ℕ) : ℚ)
    · -- flush: emit the current chunk, restart from this line
      have hcond : cfg.maxChunkSize < ((currentSize + countNws line : ℕ) : ℚ) ∧
          ¬ currentLines.isEmpty = true := ⟨hbudget, hie⟩
      obtain ⟨c2, cs2, heq2, hstart2, hchain2, hlast2, hbnd2⟩ :=
        ih (lineStart + line.length + 1) [line] (countNws line)
          (chunkStart + joinLen currentLines + 1) (by simp)
          (by simp only [joinLen, joinNl] at hpos ⊢; omega) hcode'
      have hrec : chunkStart + joinLen currentLines + 1 = lineStart := hpos
      refine ⟨{ startIndex := chunkStart, endIndex := chunkStart + joinLen currentLines,
                rawSpan := { start := chunkStart, stop := chunkStart + joinLen currentLines + 1 },
                vectorSpan := { start := chunkStart, stop := chunkStart + joinLen currentLines },
                contextPath := [fp] }, c2 :: cs2, ?_, rfl, ?_, ?_, ?_⟩
      · simp only [fallbackGo, if_pos hcond]
        rw [heq2]
      · rw [List.map_cons, List.map_cons]
        rw [List.map_cons] at hchain2
        refine List.chain'_cons.mpr ⟨?_, hchain2⟩
        show c2.rawSpan.start = chunkStart + joinLen currentLines + 1
        exact hstart2
      · rw [List.map_cons, List.map_cons, List.getLast?_cons_cons]
        rw [List.map_cons] at hlast2
        exact hlast2
      · intro t ht
        rw [List.map_cons] at ht
        rcases List.mem_cons.mp ht with hh | hh
        · subst hh
          show chunkStart ≤ chunkStart + joinLen currentLines + 1
          omega
        · exact hbnd2 t hh
    · -- absorb the line into the current chunk
      have hcond : ¬ (cfg.maxChunkSize < ((currentSize + countNws line : ℕ) : ℚ) ∧
          ¬ currentLines.isEmpty = true) := fun h => hbudget h.1
      obtain ⟨c2, cs2, heq2, hstart2, hchain2, hlast2, hbnd2⟩ :=
        ih (lineStart + line.length + 1) (currentLines ++ [line])
          (currentSize + countNws line) chunkStart (by simp)
          (by rw [joinLen_append_singleton currentLines hne line]; omega) hcode'
      refine ⟨c2, cs2, ?_, hstart2, hchain2, hlast2, hbnd2⟩
      rw [← heq2]
      simp only [fallbackGo, if_neg hcond]

section C1Assembly

open SemanticSplitter

lemma chunks_concat (l : List Char) (c : ChunkMeta) (cs : List ChunkMeta)
    (hchain : List.Chain' spanAdj ((c :: cs).map ChunkMeta.rawSpan))
    (hlast : ((c :: cs).map (fun x => x.rawSpan.stop)).getLast? = some l.length)
    (hbounds : ∀ t ∈ (c :: cs).map ChunkMeta.rawSpan, t.start ≤ t.stop)
    (hstart : c.rawSpan.start = 0) :
    ((c :: cs).map (fun x => sliceL l x.rawSpan.start x.rawSpan.stop)).flatten = l := by
  rw [List.map_cons] at hchain
  have hb2 : ∀ t ∈ c.rawSpan :: cs.map ChunkMeta.rawSpan, t.start ≤ t.stop := by
    rw [List.map_cons] at hbounds
    exact hbounds
  have hl2 : ((c.rawSpan :: cs.map ChunkMeta.rawSpan).map Span.stop).getLast? =
      some l.length := by
    rw [← List.map_cons, List.map_map]
    rw [List.map_cons] at hlast ⊢
    exact hlast
  have hj := join_slices l (cs.map ChunkMeta.rawSpan) c.rawSpan l.length hchain hb2 hl2
  have hmm : (c :: cs).map (fun x => sliceL l x.rawSpan.start x.rawSpan.stop) =
      (c.rawSpan :: cs.map ChunkMeta.rawSpan).map (fun t => sliceL l t.start t.stop) := by
    rw [← List.map_cons, List.map_map]
    rfl
  rw [hmm, hj, hstart, sliceL_zero_length]

end C1Assembly

/-- C1: for both splitter paths the chunks' `rawSpan`s partition the file:
the first starts at 0, each later one starts where its predecessor stopped,
the last stops at the file end index (byte length in the utf8 domain,
UTF-16 length otherwise — the fallback always works in the UTF-16 domain),
so concatenating the `rawSpan` slices reproduces the whole file. -/
theorem splitter_rawSpan_partition :
    (∀ (cfg : SemanticSplitter.SplitterConfig) (nws : ℕ → ℕ → ℕ) (fileEnd : ℕ)
        (windows : List SemanticSplitter.Window),
      windows ≠ [] →
      List.Chain' (fun w1 w2 => SemanticSplitter.windowEnd w1 ≤ SemanticSplitter.windowEnd w2)
        windows →
      (∀ w ∈ windows, SemanticSplitter.windowEnd w ≤ fileEnd) →
      ∃ c cs, SemanticSplitter.windowsToChunks cfg nws fileEnd windows = c :: cs ∧
        c.rawSpan.start = 0 ∧
        List.Chain' SemanticSplitter.spanAdj
          ((c :: cs).map SemanticSplitter.ChunkMeta.rawSpan) ∧
        ((c :: cs).map (fun x => x.rawSpan.stop)).getLast? = some fileEnd ∧
        ∀ l : List Char, l.length = fileEnd →
          ((c :: cs).map (fun x => sliceL l x.rawSpan.start x.rawSpan.stop)).flatten = l) ∧
    (∀ (cfg : SemanticSplitter.SplitterConfig) (fp : String) (lines : List (List Char)),
      lines ≠ [] →
      ∃ c cs, SemanticSplitter.fallbackSplit cfg fp lines = c :: cs ∧
        c.rawSpan.start = 0 ∧
        List.Chain' SemanticSplitter.spanAdj
          ((c :: cs).map SemanticSplitter.ChunkMeta.rawSpan) ∧
        ((c :: cs).map (fun x => x.rawSpan.stop)).getLast? = some (joinNl lines).length ∧
        ((c :: cs).map (fun x => sliceL (joinNl lines) x.rawSpan.start x.rawSpan.stop)).flatten
          = joinNl lines) := by
  constructor
  · intro cfg nws fileEnd windows hw hmono hle
    match windows with
    | [] => exact absurd rfl hw
    | w :: rest =>
      match hgo : SemanticSplitter.windowsToChunksGo cfg nws fileEnd (w :: rest) 0 0 with
      | [] => exact absurd hgo (go_ne_nil cfg nws fileEnd w rest 0 0)
      | c :: cs =>
        have hchain := go_chain cfg nws fileEnd rest w 0 0
        rw [hgo] at hchain
        have hlast := go_last_stop cfg nws fileEnd rest w 0 0
        rw [hgo] at hlast
        have hbounds := go_bounds cfg nws fileEnd rest w 0 0
          (Nat.zero_le _) hmono hle
        rw [hgo] at hbounds
        have hstart : c.rawSpan.start = 0 :=
          go_head_start cfg nws fileEnd w rest 0 0 c (by rw [hgo]; rfl)
        refine ⟨c, cs, hgo, hstart, hchain, hlast, ?_⟩
        intro l hlen
        exact chunks_concat l c cs hchain (by rw [hlen]; exact hlast) hbounds hstart
  · intro cfg fp lines hl
    match lines with
    | [] => exact absurd rfl hl
    | line0 :: rest =>
      by_cases hsmall : ((countNws (joinNl (line0 :: rest)) : ℕ) : ℚ) ≤ cfg.maxChunkSize
      · refine ⟨{ startIndex := 0, endIndex := (joinNl (line0 :: rest)).length,
                  rawSpan := { start := 0, stop := (joinNl (line0 :: rest)).length },
                  vectorSpan := { start := 0, stop := (joinNl (line0 :: rest)).length },
                  contextPath := [fp] }, [], ?_, rfl, by simp, by simp, ?_⟩
        · simp only [SemanticSplitter.fallbackSplit]
          rw [if_pos hsmall]
        · simp [sliceL_zero_length]
      · have hcond0 : ¬ (cfg.maxChunkSize < ((0 + countNws line0 : ℕ) : ℚ) ∧
            ¬ (List.isEmpty ([] : List (List Char))) = true) := fun h => h.2 rfl
        have hpos0 : (0 : ℕ) + joinLen [line0] + 1 = line0.length + 1 := by
          simp only [joinLen, joinNl]
          omega
        have hcode0 : (line0.length + 1) + SemanticSplitter.tailLen rest =
            (joinNl (line0 :: rest)).length + 1 := by
          have h1 := joinLen_add_one_eq_tailLen (line0 :: rest) (by simp)
          rw [tailLen_cons] at h1
          simp only [joinLen] at h1
          omega
        obtain ⟨c, cs, heq, hstart, hchain, hlast, hbounds⟩ :=
          fallbackGo_spans cfg fp (joinNl (line0 :: rest)).length rest
            (line0.length + 1) [line0] (countNws line0) 0 (by simp)
            (by simpa using hpos0) hcode0
        refine ⟨c, cs, ?_, hstart, hchain, hlast, ?_⟩
        · simp only [SemanticSplitter.fallbackSplit]
          rw [if_neg hsmall]
          rw [← heq]
          simp only [SemanticSplitter.fallbackGo, if_neg hcond0]
          norm_num
        · exact chunks_concat (joinNl (line0 :: rest)) c cs hchain hlast hbounds hstart

section C4Support

open VectorStore

lemma flatten_ne_nil_of_mem {q : FileUpsert} {batch : List FileUpsert}
    (hq : q ∈ batch) (hr : q.records ≠ []) :
    (batch.map (fun f => f.records)).flatten ≠ [] := by
  intro hnil
  match hrec : q.records with
  | [] => exact hr hrec
  | r0 :: rs =>
    have : r0 ∈ (batch.map (fun f => f.records)).flatten := by
      rw [List.mem_flatten]
      exact ⟨q.records, List.mem_map_of_mem _ hq, by rw [hrec]; simp⟩
    rw [hnil] at this
    simp at this

lemma isEmpty_false_of_ne_nil {α : Type} {l : List α} (h : l ≠ []) :
    l.isEmpty = false := by
  cases l with
  | nil => exact absurd rfl h
  | cons a as => rfl

lemma subBatchOps_eq (batch : List FileUpsert)
    (h : (batch.map (fun f => f.records)).flatten ≠ []) :
    subBatchOps batch =
      [VOp.insertRecs ((batch.map (fun f => f.records)).flatten),
       VOp.deleteStale (batch.map (fun f => (f.path, f.hash)))] := by
  simp only [subBatchOps, isEmpty_false_of_ne_nil h, Bool.false_eq_true, if_false]

lemma matchesStale_false_of_hash_eq (conds : List (String × String))
    (r : ChunkRecord) (q : FileUpsert)
    (hpath : r.file_path = q.path) (hhash : r.file_hash = q.hash)
    (hconds : ∀ c ∈ conds, c.1 = q.path → c.2 = q.hash) :
    matchesStale conds r = false := by
  rw [matchesStale, List.any_eq_false]
  intro c hc
  simp only [Bool.and_eq_true, decide_eq_true_eq, not_and, Decidable.not_not]
  intro hp
  rw [hpath] at hp
  rw [hhash, hconds c hc hp.symm]

end C4Support

/-- C4: `upsertFile` inserts the new records before the single stale
delete, the delete removes exactly the records with the file's path and a
different hash, and throughout the operation — for the single-file path and
for every sub-batch of `batchUpsertFiles` — a file that had records and
receives a non-empty record list is never without records. -/
theorem vectorStore_upsert_monotonic :
    (∀ (p h : String) (records : List VectorStore.ChunkRecord),
      records ≠ [] →
      VectorStore.upsertFileOps p h records =
        [VectorStore.VOp.insertRecs records, VectorStore.VOp.deleteStale [(p, h)]]) ∧
    (∀ (conds : List (String × String)) (s : List VectorStore.ChunkRecord)
        (r : VectorStore.ChunkRecord),
      r ∈ VectorStore.applyOp s (VectorStore.VOp.deleteStale conds) ↔
        r ∈ s ∧ ¬ ∃ c ∈ conds, r.file_path = c.1 ∧ r.file_hash ≠ c.2) ∧
    (∀ (p h : String) (records s0 : List VectorStore.ChunkRecord),
      records ≠ [] →
      (∀ r ∈ records, r.file_path = p ∧ r.file_hash = h) →
      VectorStore.hasRecordFor p s0 →
      ∀ s ∈ VectorStore.runStates s0 (VectorStore.upsertFileOps p h records),
        VectorStore.hasRecordFor p s) ∧
    (∀ files : List VectorStore.FileUpsert,
      VectorStore.batchUpsertFilesOps files =
        ((VectorStore.buildBatches files).map VectorStore.subBatchOps).flatten) ∧
    (∀ (batch : List VectorStore.FileUpsert),
      (batch.map (fun f => f.records)).flatten ≠ [] →
      VectorStore.subBatchOps batch =
        [VectorStore.VOp.insertRecs ((batch.map (fun f => f.records)).flatten),
         VectorStore.VOp.deleteStale (batch.map (fun f => (f.path, f.hash)))]) ∧
    (∀ (batch : List VectorStore.FileUpsert) (q : VectorStore.FileUpsert)
        (s0 : List VectorStore.ChunkRecord),
      q ∈ batch →
      q.records ≠ [] →
      (∀ f ∈ batch, ∀ r ∈ f.records, r.file_path = f.path ∧ r.file_hash = f.hash) →
      (batch.map (fun f => f.path)).Nodup →
      VectorStore.hasRecordFor q.path s0 →
      ∀ s ∈ VectorStore.runStates s0 (VectorStore.subBatchOps batch),
        VectorStore.hasRecordFor q.path s) := by
  refine ⟨?_, ?_, ?_, ?_, ?_, ?_⟩
  · intro p h records hne
    cases records with
    | nil => exact absurd rfl hne
    | cons r rs => rfl
  · intro conds s r
    simp only [VectorStore.applyOp, List.mem_filter, Bool.not_eq_true',
      VectorStore.matchesStale, List.any_eq_false]
    constructor
    · rintro ⟨hmem, hall⟩
      refine ⟨hmem, ?_⟩
      rintro ⟨c, hc, hp, hh⟩
      have := hall c hc
      simp only [Bool.and_eq_true, decide_eq_true_eq, not_and] at this
      exact absurd hh ((fun hx => by simpa using this hx) hp)
    · rintro ⟨hmem, hno⟩
      refine ⟨hmem, ?_⟩
      intro c hc
      simp only [Bool.and_eq_true, decide_eq_true_eq, not_and]
      intro hp hh
      exact hno ⟨c, hc, hp, by simpa using hh⟩
  · intro p h records s0 hne htag hs0
    match records with
    | [] => exact absurd rfl hne
    | r0 :: rs =>
      intro s hs
      simp only [VectorStore.upsertFileOps, List.isEmpty_cons, Bool.false_eq_true, if_false,
        VectorStore.runStates, List.scanl, List.mem_cons, List.mem_singleton,
        List.not_mem_nil, or_false] at hs
      rcases hs with hs | hs | hs
      · exact hs ▸ hs0
      · subst hs
        obtain ⟨rx, hrx, hrp⟩ := hs0
        exact ⟨rx, List.mem_append_left _ hrx, hrp⟩
      · subst hs
        refine ⟨r0, ?_, (htag r0 (by simp)).1⟩
        simp only [VectorStore.applyOp, List.mem_filter]
        refine ⟨List.mem_append_right _ (by simp), ?_⟩
        have hm : VectorStore.matchesStale [(p, h)] r0 = false := by
          simp [VectorStore.matchesStale, (htag r0 (by simp)).2]
        rw [hm]
        rfl
  · intro files
    cases files with
    | nil => rfl
    | cons f fs => rfl
  · intro batch h
    exact subBatchOps_eq batch h
  · intro batch q s0 hq hqr htag hnodup hs0 s hs
    have hbr : (batch.map (fun f => f.records)).flatten ≠ [] :=
      flatten_ne_nil_of_mem hq hqr
    rw [subBatchOps_eq batch hbr] at hs
    simp only [VectorStore.runStates, List.scanl, List.mem_cons, List.mem_singleton,
      List.not_mem_nil, or_false] at hs
    obtain ⟨r0, hr0q⟩ : ∃ r0, r0 ∈ q.records := by
      match hrec : q.records with
      | [] => exact absurd hrec hqr
      | a :: as => exact ⟨a, by simp⟩
    have hr0flat : r0 ∈ (batch.map (fun f => f.records)).flatten := by
      rw [List.mem_flatten]
      exact ⟨q.records, List.mem_map_of_mem _ hq, hr0q⟩
    have hr0tag := htag q hq r0 hr0q
    rcases hs with hs | hs | hs
    · exact hs ▸ hs0
    · subst hs
      obtain ⟨rx, hrx, hrp⟩ := hs0
      exact ⟨rx, List.mem_append_left _ hrx, hrp⟩
    · subst hs
      refine ⟨r0, ?_, hr0tag.1⟩
      simp only [VectorStore.applyOp, List.mem_filter]
      refine ⟨List.mem_append_right _ hr0flat, ?_⟩
      have hm : VectorStore.matchesStale (batch.map (fun f => (f.path, f.hash))) r0 = false := by
        refine matchesStale_false_of_hash_eq _ _ q hr0tag.1 hr0tag.2 ?_
        intro c hc hcp
        obtain ⟨f, hf, hfc⟩ := List.mem_map.mp hc
        have hfq : f = q := by
          have hinj := List.inj_on_of_nodup_map hnodup
          have hfp : f.path = q.path := by rw [← hfc] at hcp; exact hcp
          exact hinj hf hq hfp
        rw [← hfc, hfq]
      rw [hm]
      rfl

/-- C5 counterexample: for the single file `a` with content `x`, no
transaction issued by `batchUpsert` touches both the `files` table and the
`files_fts` mirror — the mirror write happens in a second, separate
transaction, contradicting the claim that both run in one transaction. -/
theorem db_batchUpsert_not_single_transaction :
    ¬ ∃ tx ∈ Db.batchUpsertTxs
        [{ path := "a", hash := "h", mtime := 0, size := 0,
           content := some "x", language := "ts" }],
      Db.touchesFiles tx = true ∧ Db.touchesFts tx = true := by
  decide

section C5Support

open Db

lemma applyTx_filesUpserts_ftsRows :
    ∀ (files : List FileMeta) (st : DbState),
      (applyTx st (files.map DbWrite.filesUpsert)).ftsRows = st.ftsRows := by
  intro files
  induction files with
  | nil => intro st; rfl
  | cons f fs ih =>
    intro st
    show (applyTx (applyWrite st (DbWrite.filesUpsert f)) (fs.map DbWrite.filesUpsert)).ftsRows
      = st.ftsRows
    rw [ih]
    rfl

end C5Support

/-- C5 (amended): `batchUpsert` executes exactly two database
transactions when some file has non-null content: first one transaction
holding all `files`-table upserts, then a separate `files_fts` transaction;
the first touches only the `files` table, the second only `files_fts`, so
an interruption between them leaves `files` updated while `files_fts` is
not. -/
theorem db_batchUpsert_two_transactions
    (files : List Db.FileMeta)
    (h : files.filterMap (fun f => f.content.map (fun c => (f.path, c))) ≠ []) :
    Db.batchUpsertTxs files =
      [files.map Db.DbWrite.filesUpsert,
       Db.batchUpsertFileFtsTx
         (files.filterMap (fun f => f.content.map (fun c => (f.path, c))))] ∧
    (∀ w ∈ files.map Db.DbWrite.filesUpsert, Db.isFilesWrite w = true) ∧
    (∀ w ∈ Db.batchUpsertFileFtsTx
        (files.filterMap (fun f => f.content.map (fun c => (f.path, c)))),
      Db.isFilesWrite w = false) ∧
    (∀ st : Db.DbState,
      (Db.applyTx st (files.map Db.DbWrite.filesUpsert)).ftsRows = st.ftsRows) := by
  refine ⟨?_, ?_, ?_, ?_⟩
  · simp only [Db.batchUpsertTxs, isEmpty_false_of_ne_nil h, Bool.false_eq_true, if_false]
  · intro w hw
    obtain ⟨m, _, hm⟩ := List.mem_map.mp hw
    rw [← hm]
    rfl
  · intro w hw
    simp only [Db.batchUpsertFileFtsTx, List.mem_flatten, List.mem_map] at hw
    obtain ⟨ws, ⟨f, _, hf⟩, hmem⟩ := hw
    rw [← hf] at hmem
    rcases List.mem_cons.mp hmem with hh | hh
    · rw [hh]; rfl
    · rw [List.mem_singleton.mp hh]; rfl
  · exact applyTx_filesUpserts_ftsRows files

section C6Support

open SearchService GraphExpander

lemma nearestFold_spec (ni : ℤ) :
    ∀ (rest processed : List SChunk) (dmin : ℕ) (smax : ℚ),
      (∃ s ∈ processed, (ni - s.chunkIndex).natAbs = dmin ∧ s.score = smax) →
      (∀ s ∈ processed, dmin ≤ (ni - s.chunkIndex).natAbs) →
      (∀ s ∈ processed, (ni - s.chunkIndex).natAbs = dmin → s.score ≤ smax) →
      ∃ dmin2 smax2,
        List.foldl (nearestStep ni) (some dmin, smax) rest = (some dmin2, smax2) ∧
        (∃ s ∈ processed ++ rest, (ni - s.chunkIndex).natAbs = dmin2 ∧ s.score = smax2) ∧
        (∀ s ∈ processed ++ rest, dmin2 ≤ (ni - s.chunkIndex).natAbs) ∧
        (∀ s ∈ processed ++ rest, (ni - s.chunkIndex).natAbs = dmin2 → s.score ≤ smax2) := by
  intro rest
  induction rest with
  | nil =>
    intro processed dmin smax hatt hlow hmax
    exact ⟨dmin, smax, rfl, by simpa using hatt, by simpa using hlow, by simpa using hmax⟩
  | cons x rest2 ih =>
    intro processed dmin smax hatt hlow hmax
    have hassoc : processed ++ x :: rest2 = (processed ++ [x]) ++ rest2 := by simp
    rw [List.foldl_cons]
    by_cases hd : (ni - x.chunkIndex).natAbs < dmin
    · have hstep : nearestStep ni (some dmin, smax) x =
          (some (ni - x.chunkIndex).natAbs, x.score) := by
        simp only [nearestStep, if_pos hd]
      rw [hstep]
      obtain ⟨d2, s2, heq, ha, hl, hm⟩ := ih (processed ++ [x]) _ _
        ⟨x, by simp, rfl, rfl⟩
        (by
          intro s hs
          rcases List.mem_append.mp hs with hh | hh
          · exact le_trans (le_of_lt hd) (hlow s hh)
          · rw [List.mem_singleton.mp hh])
        (by
          intro s hs hdist
          rcases List.mem_append.mp hs with hh | hh
          · exact absurd hdist (by have := hlow s hh; omega)
          · rw [List.mem_singleton.mp hh])
      exact ⟨d2, s2, heq, by rwa [← hassoc] at ha, by rwa [← hassoc] at hl,
        by rwa [← hassoc] at hm⟩
    · by_cases hd2 : (ni - x.chunkIndex).natAbs = dmin ∧ smax < x.score
      · have hstep : nearestStep ni (some dmin, smax) x = (some dmin, x.score) := by
          simp only [nearestStep, if_neg hd, if_pos hd2]
        rw [hstep]
        obtain ⟨d2, s2, heq, ha, hl, hm⟩ := ih (processed ++ [x]) _ _
          ⟨x, by simp, hd2.1, rfl⟩
          (by
            intro s hs
            rcases List.mem_append.mp hs with hh | hh
            · exact hlow s hh
            · rw [List.mem_singleton.mp hh]; omega)
          (by
            intro s hs hdist
            rcases List.mem_append.mp hs with hh | hh
            · exact le_trans (hmax s hh hdist) (le_of_lt hd2.2)
            · rw [List.mem_singleton.mp hh])
        exact ⟨d2, s2, heq, by rwa [← hassoc] at ha, by rwa [← hassoc] at hl,
          by rwa [← hassoc] at hm⟩
      · have hstep : nearestStep ni (some dmin, smax) x = (some dmin, smax) := by
          simp only [nearestStep, if_neg hd, if_neg hd2]
        rw [hstep]
        obtain ⟨d2, s2, heq, ha, hl, hm⟩ := ih (processed ++ [x]) _ _
          (by
            obtain ⟨s0, hs0, h1, h2⟩ := hatt
            exact ⟨s0, List.mem_append_left _ hs0, h1, h2⟩)
          (by
            intro s hs
            rcases List.mem_append.mp hs with hh | hh
            · exact hlow s hh
            · rw [List.mem_singleton.mp hh]; omega)
          (by
            intro s hs hdist
            rcases List.mem_append.mp hs with hh | hh
            · exact hmax s hh hdist
            · rw [List.mem_singleton.mp hh]
              have hxd : (ni - x.chunkIndex).natAbs = dmin := by
                rw [List.mem_singleton.mp hh] at hdist
                exact hdist
              by_contra hcon
              push_neg at hcon
              exact hd2 ⟨hxd, hcon⟩)
        exact ⟨d2, s2, heq, by rwa [← hassoc] at ha, by rwa [← hassoc] at hl,
          by rwa [← hassoc] at hm⟩

lemma nearestScan_spec (ni : ℤ) (seeds : List SChunk) (hne : seeds ≠ []) :
    ∃ dmin smax, nearestScan seeds ni = (some dmin, smax) ∧
      (∃ s ∈ seeds, (ni - s.chunkIndex).natAbs = dmin ∧ s.score = smax) ∧
      (∀ s ∈ seeds, dmin ≤ (ni - s.chunkIndex).natAbs) ∧
      (∀ s ∈ seeds, (ni - s.chunkIndex).natAbs = dmin → s.score ≤ smax) := by
  match seeds with
  | [] => exact absurd rfl hne
  | s0 :: rest =>
    have hstep0 : nearestStep ni (none, 0) s0 = (some (ni - s0.chunkIndex).natAbs, s0.score) :=
      rfl
    have := nearestFold_spec ni rest [s0] (ni - s0.chunkIndex).natAbs s0.score
      ⟨s0, by simp, rfl, rfl⟩ (by intro s hs; rw [List.mem_singleton.mp hs])
      (by intro s hs _; rw [List.mem_singleton.mp hs])
    obtain ⟨d2, s2, heq, ha, hl, hm⟩ := this
    refine ⟨d2, s2, ?_, by simpa using ha, by simpa using hl, by simpa using hm⟩
    rw [nearestScan, List.foldl_cons, hstep0]
    exact heq

end C6Support

/-- C6 counterexample: with seeds at indices 0 (score 1) and 2 (score 2/5)
in a file whose chunks are 0..3, the emitted neighbor at index 3 gets score
(2/5)·0.8 = 8/25 from its nearest seed, which differs from
`maxSeedScoreInFile · decayNeighbor^distance` for every seed distance. -/
theorem expandNeighbors_not_file_max_counterexample :
    ∃ c ∈ GraphExpander.expandNeighborsFile SearchService.DEFAULT_CONFIG "f"
        [{ filePath := "f", chunkIndex := 0, score := 1,
           source := SearchService.ChunkSource.vector, recDist := 0, rank := 0 },
         { filePath := "f", chunkIndex := 2, score := 2/5,
           source := SearchService.ChunkSource.vector, recDist := 0, rank := 0 }]
        [{ file_path := "f", chunk_index := 0 }, { file_path := "f", chunk_index := 1 },
         { file_path := "f", chunk_index := 2 }, { file_path := "f", chunk_index := 3 }]
        [],
      c.chunkIndex = 3 ∧
      ∀ s ∈ ([{ filePath := "f", chunkIndex := 0, score := 1,
                source := SearchService.ChunkSource.vector, recDist := 0, rank := 0 },
              { filePath := "f", chunkIndex := 2, score := 2/5,
                source := SearchService.ChunkSource.vector, recDist := 0, rank := 0 }] :
               List SearchService.SChunk),
        c.score ≠
          GraphExpander.maxSeedScoreInFile
              [{ filePath := "f", chunkIndex := 0, score := 1,
                 source := SearchService.ChunkSource.vector, recDist := 0, rank := 0 },
               { filePath := "f", chunkIndex := 2, score := 2/5,
                 source := SearchService.ChunkSource.vector, recDist := 0, rank := 0 }] *
            SearchService.DEFAULT_CONFIG.decayNeighbor ^
              ((c.chunkIndex - s.chunkIndex).natAbs) := by
  refine ⟨{ filePath := "f", chunkIndex := 3, score := 2/5 * (4/5 : ℚ),
            source := SearchService.ChunkSource.neighbor, recDist := 0, rank := 0 }, ?_, rfl, ?_⟩
  · norm_num [GraphExpander.expandNeighborsFile, GraphExpander.collectNeighborIndices,
      GraphExpander.deltas, GraphExpander.nearestScan, GraphExpander.nearestStep,
      SearchService.DEFAULT_CONFIG, List.insertionSort, List.orderedInsert, List.range,
      List.range.loop, List.filterMap, List.foldl]
  · intro s hs
    rcases List.mem_cons.mp hs with hh | hh
    · subst hh
      norm_num [GraphExpander.maxSeedScoreInFile, SearchService.DEFAULT_CONFIG]
    · rw [List.mem_singleton.mp hh]
      norm_num [GraphExpander.maxSeedScoreInFile, SearchService.DEFAULT_CONFIG]

/-- C6 (amended): every neighbor emitted by E1 expansion is scored from its
nearest seed, not the file-wide best seed: its score is the best score
among the seeds at minimal index distance, multiplied by
`decayNeighbor ^ (that minimal distance)`. -/
theorem expandNeighbors_score_nearest_seed
    (cfg : SearchService.SearchConfig) (fp : String)
    (fileSeeds : List SearchService.SChunk) (allChunks : List GraphExpander.ChunkRec)
    (existingKeys : List String) (hne : fileSeeds ≠ []) :
    ∀ c ∈ GraphExpander.expandNeighborsFile cfg fp fileSeeds allChunks existingKeys,
      ∃ dmin smax,
        (∃ s ∈ fileSeeds, (c.chunkIndex - s.chunkIndex).natAbs = dmin ∧ s.score = smax) ∧
        (∀ s ∈ fileSeeds, dmin ≤ (c.chunkIndex - s.chunkIndex).natAbs) ∧
        (∀ s ∈ fileSeeds, (c.chunkIndex - s.chunkIndex).natAbs = dmin → s.score ≤ smax) ∧
        c.score = smax * cfg.decayNeighbor ^ dmin := by
  intro c hc
  simp only [GraphExpander.expandNeighborsFile, List.mem_filterMap] at hc
  obtain ⟨ni, _, hf⟩ := hc
  by_cases hex : existingKeys.contains (fp ++ "#" ++ toString ni)
  · rw [if_pos hex] at hf
    exact absurd hf (by simp)
  · rw [if_neg hex] at hf
    obtain ⟨dmin, smax, heq, ha, hl, hm⟩ := nearestScan_spec ni fileSeeds hne
    have hcc := (Option.some.inj hf).symm
    subst hcc
    refine ⟨dmin, smax, ha, hl, hm, ?_⟩
    show (GraphExpander.nearestScan fileSeeds ni).2 *
        cfg.decayNeighbor ^ (GraphExpander.nearestScan fileSeeds ni).1.getD 0 =
      smax * cfg.decayNeighbor ^ dmin
    rw [heq]
    rfl

section C3Support

open SearchService

lemma chunkKey_scale (k : ℚ) (c : SChunk) : chunkKey (scaleChunk k c) = chunkKey c := rfl

lemma score_scale_le_iff (k : ℚ) (hk : 0 < k) (a b : SChunk) :
    ((scaleChunk k b).score ≤ (scaleChunk k a).score) ↔ (b.score ≤ a.score) := by
  simp only [scaleChunk]
  exact mul_le_mul_right hk

lemma orderedInsert_scale (k : ℚ) (hk : 0 < k) (a : SChunk) :
    ∀ l : List SChunk,
      List.orderedInsert (fun x y => y.score ≤ x.score) (scaleChunk k a)
          (l.map (scaleChunk k)) =
        (List.orderedInsert (fun x y => y.score ≤ x.score) a l).map (scaleChunk k) := by
  intro l
  induction l with
  | nil => rfl
  | cons b bs ih =>
    simp only [List.map_cons, List.orderedInsert]
    by_cases h : b.score ≤ a.score
    · rw [if_pos ((score_scale_le_iff k hk a b).mpr h), if_pos h]
      simp
    · rw [if_neg (fun hx => h ((score_scale_le_iff k hk a b).mp hx)), if_neg h]
      simp only [List.map_cons, ih]

lemma sortByScoreDesc_scale (k : ℚ) (hk : 0 < k) :
    ∀ l : List SChunk,
      sortByScoreDesc (l.map (scaleChunk k)) = (sortByScoreDesc l).map (scaleChunk k) := by
  intro l
  induction l with
  | nil => rfl
  | cons a l' ih =>
    simp only [sortByScoreDesc, List.map_cons, List.insertionSort] at ih ⊢
    rw [ih]
    exact orderedInsert_scale k hk a _

lemma pickLoop_scale (k : ℚ) (hk : 0 < k) (minK maxK : ℕ) (floor dyn : ℚ) :
    ∀ (l : List SChunk) (i p : ℕ),
      pickLoop minK maxK (floor * k) (dyn * k) (l.map (scaleChunk k)) i p =
        (pickLoop minK maxK floor dyn l i p).map (scaleChunk k) := by
  intro l
  induction l with
  | nil => intro i p; rfl
  | cons c rest ih =>
    intro i p
    simp only [List.map_cons, pickLoop]
    by_cases h1 : maxK ≤ p
    · rw [if_pos h1, if_pos h1]
      rfl
    · rw [if_neg h1, if_neg h1]
      by_cases h2 : i < minK
      · rw [if_pos h2, if_pos h2]
        by_cases h3 : floor ≤ c.score
        · have h3' : floor * k ≤ (scaleChunk k c).score := by
            show floor * k ≤ c.score * k
            exact (mul_le_mul_right hk).mpr h3
          rw [if_pos h3', if_pos h3, List.map_cons, ih]
        · have h3' : ¬ floor * k ≤ (scaleChunk k c).score := fun hx =>
            h3 ((mul_le_mul_right hk).mp hx)
          rw [if_neg h3', if_neg h3]
          rfl
      · rw [if_neg h2, if_neg h2]
        by_cases h4 : c.score < dyn
        · have h4' : (scaleChunk k c).score < dyn * k := by
            show c.score * k < dyn * k
            exact (mul_lt_mul_right hk).mpr h4
          rw [if_pos h4', if_pos h4]
          rfl
        · have h4' : ¬ (scaleChunk k c).score < dyn * k := fun hx =>
            h4 ((mul_lt_mul_right hk).mp hx)
          rw [if_neg h4', if_neg h4, List.map_cons, ih]

lemma dedupGo_scale (k : ℚ) :
    ∀ (l : List SChunk) (seen : List String),
      dedupGo seen (l.map (scaleChunk k)) = (dedupGo seen l).map (scaleChunk k) := by
  intro l
  induction l with
  | nil => intro seen; rfl
  | cons c rest ih =>
    intro seen
    simp only [List.map_cons, dedupGo, chunkKey_scale]
    by_cases h : seen.contains (chunkKey c)
    · rw [if_pos h, if_pos h, ih]
    · rw [if_neg h, if_neg h, List.map_cons, ih]

lemma map_chunkKey_scale (k : ℚ) (l : List SChunk) :
    (l.map (scaleChunk k)).map chunkKey = l.map chunkKey := by
  rw [List.map_map]
  rfl

lemma topUpLoop_scale (k : ℚ) (hk : 0 < k) (minK maxK : ℕ) (floor : ℚ) :
    ∀ (l acc : List SChunk),
      topUpLoop minK maxK (floor * k) (l.map (scaleChunk k)) (acc.map (scaleChunk k)) =
        (topUpLoop minK maxK floor l acc).map (scaleChunk k) := by
  intro l
  induction l with
  | nil => intro acc; rfl
  | cons c rest ih =>
    intro acc
    simp only [List.map_cons, topUpLoop, List.length_map, chunkKey_scale, map_chunkKey_scale]
    by_cases h1 : min minK maxK ≤ acc.length
    · rw [if_pos h1, if_pos h1]
    · rw [if_neg h1, if_neg h1]
      by_cases h2 : c.score < floor
      · have h2' : (scaleChunk k c).score < floor * k := by
          show c.score * k < floor * k
          exact (mul_lt_mul_right hk).mpr h2
        rw [if_pos h2', if_pos h2]
      · have h2' : ¬ (scaleChunk k c).score < floor * k := fun hx =>
          h2 ((mul_lt_mul_right hk).mp hx)
        rw [if_neg h2', if_neg h2]
        by_cases h3 : (acc.map chunkKey).contains (chunkKey c)
        · rw [if_pos h3, if_pos h3, ih]
        · rw [if_neg h3, if_neg h3]
          have : acc.map (scaleChunk k) ++ [scaleChunk k c] =
              (acc ++ [c]).map (scaleChunk k) := by simp
          rw [this, ih]

lemma max_mul_right (a b k : ℚ) (hk : 0 ≤ k) : max a b * k = max (a * k) (b * k) := by
  rcases le_total a b with h | h
  · rw [max_eq_right h, max_eq_right (mul_le_mul_of_nonneg_right h hk)]
  · rw [max_eq_left h, max_eq_left (mul_le_mul_of_nonneg_right h hk)]

lemma min_mul_right (a b k : ℚ) (hk : 0 ≤ k) : min a b * k = min (a * k) (b * k) := by
  rcases le_total a b with h | h
  · rw [min_eq_left h, min_eq_left (mul_le_mul_of_nonneg_right h hk)]
  · rw [min_eq_right h, min_eq_right (mul_le_mul_of_nonneg_right h hk)]

lemma applySmartCutoff_eq_of_sorted (cfg : SearchConfig) (he : cfg.enableSmartTopK = true)
    (c : SChunk) (cs : List SChunk) (top : SChunk) (rest : List SChunk)
    (hs : sortByScoreDesc (c :: cs) = top :: rest) :
    applySmartCutoff cfg (c :: cs) =
      if top.score < cfg.smartMinScore then [top]
      else
        if (dedupChunks (pickLoop cfg.smartMinK cfg.smartMaxK cfg.smartMinScore
              (max cfg.smartMinScore (min (top.score * cfg.smartTopScoreRatio)
                (top.score - cfg.smartTopScoreDeltaAbs)))
              (top :: rest) 0 0)).length < min cfg.smartMinK cfg.smartMaxK then
          topUpLoop cfg.smartMinK cfg.smartMaxK cfg.smartMinScore (top :: rest)
            (dedupChunks (pickLoop cfg.smartMinK cfg.smartMaxK cfg.smartMinScore
              (max cfg.smartMinScore (min (top.score * cfg.smartTopScoreRatio)
                (top.score - cfg.smartTopScoreDeltaAbs)))
              (top :: rest) 0 0))
        else
          dedupChunks (pickLoop cfg.smartMinK cfg.smartMaxK cfg.smartMinScore
              (max cfg.smartMinScore (min (top.score * cfg.smartTopScoreRatio)
                (top.score - cfg.smartTopScoreDeltaAbs)))
              (top :: rest) 0 0) := by
  simp only [applySmartCutoff, he, if_true]
  rw [hs]

end C3Support

/-- C3 (amended): the smart cutoff is jointly scale-invariant: multiplying
every candidate score together with the absolute thresholds
(`smartMinScore`, `smartTopScoreDeltaAbs`) by the same positive constant
selects the same candidates — in particular the same
`(file_path, chunk_index)` keys.  (With the thresholds held fixed, as in
the default configuration, score scaling alone changes the selection; see
the counterexample.) -/
theorem applySmartCutoff_joint_scale_invariant
    (cfg : SearchService.SearchConfig) (k : ℚ) (hk : 0 < k)
    (l : List SearchService.SChunk) :
    SearchService.applySmartCutoff (SearchService.scaleCfg k cfg)
        (l.map (SearchService.scaleChunk k)) =
      (SearchService.applySmartCutoff cfg l).map (SearchService.scaleChunk k) ∧
    (SearchService.applySmartCutoff (SearchService.scaleCfg k cfg)
        (l.map (SearchService.scaleChunk k))).map SearchService.chunkKey =
      (SearchService.applySmartCutoff cfg l).map SearchService.chunkKey := by
  have hmain : SearchService.applySmartCutoff (SearchService.scaleCfg k cfg)
      (l.map (SearchService.scaleChunk k)) =
      (SearchService.applySmartCutoff cfg l).map (SearchService.scaleChunk k) := by
    by_cases he : cfg.enableSmartTopK
    · have he' : (SearchService.scaleCfg k cfg).enableSmartTopK := he
      match l with
      | [] => simp [SearchService.applySmartCutoff]
      | a :: l' =>
        match hs : SearchService.sortByScoreDesc (a :: l') with
        | [] => exact absurd hs (sortByScoreDesc_nonempty _ (by simp))
        | t :: rest =>
          have hsort : SearchService.sortByScoreDesc
              ((a :: l').map (SearchService.scaleChunk k)) =
              SearchService.scaleChunk k t :: rest.map (SearchService.scaleChunk k) := by
            rw [sortByScoreDesc_scale k hk, hs, List.map_cons]
          have hL := applySmartCutoff_eq_of_sorted (SearchService.scaleCfg k cfg) he'
            (SearchService.scaleChunk k a) (l'.map (SearchService.scaleChunk k))
            (SearchService.scaleChunk k t) (rest.map (SearchService.scaleChunk k))
            (by simpa using hsort)
          have hR := applySmartCutoff_eq_of_sorted cfg he a l' t rest hs
          rw [List.map_cons, hL, hR]
          have hfMin : (SearchService.scaleCfg k cfg).smartMinScore =
              cfg.smartMinScore * k := rfl
          have hfDelta : (SearchService.scaleCfg k cfg).smartTopScoreDeltaAbs =
              cfg.smartTopScoreDeltaAbs * k := rfl
          have hfRatio : (SearchService.scaleCfg k cfg).smartTopScoreRatio =
              cfg.smartTopScoreRatio := rfl
          have hfMinK : (SearchService.scaleCfg k cfg).smartMinK = cfg.smartMinK := rfl
          have hfMaxK : (SearchService.scaleCfg k cfg).smartMaxK = cfg.smartMaxK := rfl
          have hscore : (SearchService.scaleChunk k t).score = t.score * k := rfl
          rw [hfMin, hfDelta, hfRatio, hfMinK, hfMaxK, hscore]
          by_cases hlt : t.score < cfg.smartMinScore
          · rw [if_pos ((mul_lt_mul_right hk).mpr hlt), if_pos hlt]
            simp [SearchService.scaleChunk]
          · have hlt' : ¬ t.score * k < cfg.smartMinScore * k := fun hx =>
              hlt ((mul_lt_mul_right hk).mp hx)
            rw [if_neg hlt', if_neg hlt]
            have hdyn : max (cfg.smartMinScore * k)
                (min (t.score * k * cfg.smartTopScoreRatio)
                  (t.score * k - cfg.smartTopScoreDeltaAbs * k)) =
                (max cfg.smartMinScore (min (t.score * cfg.smartTopScoreRatio)
                  (t.score - cfg.smartTopScoreDeltaAbs))) * k := by
              rw [max_mul_right _ _ _ hk.le, min_mul_right _ _ _ hk.le, sub_mul,
                mul_right_comm]
            rw [hdyn]
            have hcons : (SearchService.scaleChunk k t ::
                rest.map (SearchService.scaleChunk k)) =
                (t :: rest).map (SearchService.scaleChunk k) := by simp
            rw [hcons, pickLoop_scale k hk]
            have hded : ∀ m : List SearchService.SChunk,
                SearchService.dedupChunks (m.map (SearchService.scaleChunk k)) =
                (SearchService.dedupChunks m).map (SearchService.scaleChunk k) :=
              fun m => dedupGo_scale k m []
            rw [hded, List.length_map]
            by_cases hlen : (SearchService.dedupChunks
                (SearchService.pickLoop cfg.smartMinK cfg.smartMaxK cfg.smartMinScore
                  (max cfg.smartMinScore (min (t.score * cfg.smartTopScoreRatio)
                    (t.score - cfg.smartTopScoreDeltaAbs)))
                  (t :: rest) 0 0)).length < min cfg.smartMinK cfg.smartMaxK
            · rw [if_pos hlen, if_pos hlen]
              exact topUpLoop_scale k hk cfg.smartMinK cfg.smartMaxK
                cfg.smartMinScore (t :: rest) _
            · rw [if_neg hlen, if_neg hlen]
    · have he' : (SearchService.scaleCfg k cfg).enableSmartTopK = false := by
        simp [SearchService.scaleCfg]
        exact Bool.not_eq_true _ ▸ (by simpa using he)
      simp [SearchService.applySmartCutoff, he, he']
  exact ⟨hmain, by rw [hmain, map_chunkKey_scale]⟩


/-- C3 (counterexample): with the default configuration's thresholds held
fixed, multiplying all scores by the positive constant `2` changes the set
of selected `(file_path, chunk_index)` keys: on scores `0.2, 0.18` the
cutoff keeps only the top candidate (its score is below `smartMinScore`),
while on `0.4, 0.36` it keeps both. -/
theorem applySmartCutoff_not_scale_invariant_default :
    (0 : ℚ) < 2 ∧
    SearchService.chunkKey cexB ∉
      (SearchService.applySmartCutoff SearchService.DEFAULT_CONFIG
        [cexA, cexB]).map SearchService.chunkKey ∧
    SearchService.chunkKey (SearchService.scaleChunk 2 cexB) ∈
      (SearchService.applySmartCutoff SearchService.DEFAULT_CONFIG
        ([cexA, cexB].map (SearchService.scaleChunk 2))).map SearchService.chunkKey := by
  have h1 : SearchService.applySmartCutoff SearchService.DEFAULT_CONFIG [cexA, cexB] =
      [cexA] := by
    norm_num [SearchService.applySmartCutoff, SearchService.DEFAULT_CONFIG,
      SearchService.sortByScoreDesc, List.insertionSort, List.orderedInsert, cexA, cexB]
  have hne : ¬ ("b" ++ "#" ++ toString (0 : ℤ)) = ("a" ++ "#" ++ toString (0 : ℤ)) := by
    decide
  have h2 : SearchService.applySmartCutoff SearchService.DEFAULT_CONFIG
      ([cexA, cexB].map (SearchService.scaleChunk 2)) =
      [SearchService.scaleChunk 2 cexA, SearchService.scaleChunk 2 cexB] := by
    norm_num [hne, SearchService.applySmartCutoff, SearchService.DEFAULT_CONFIG,
      SearchService.sortByScoreDesc, List.insertionSort, List.orderedInsert,
      SearchService.pickLoop, SearchService.dedupChunks, SearchService.dedupGo,
      SearchService.scaleChunk, SearchService.chunkKey, cexA, cexB]
  rw [h1, h2]
  refine ⟨by norm_num, ?_, ?_⟩
  · simp only [List.map_cons, List.map_nil, List.mem_singleton]
    decide
  · simp only [List.map_cons, List.map_nil]
    decide

/-- Witness for C8 at the one-candidate list with score `0.2`. -/
theorem applySmartCutoff_below_floor_returns_top_witness :
    ([wChunk "w" (1/5)] ≠ ([] : List SearchService.SChunk)) ∧
    (∀ x ∈ [wChunk "w" (1/5)], x.score < SearchService.DEFAULT_CONFIG.smartMinScore) ∧
    ∃ t, SearchService.applySmartCutoff SearchService.DEFAULT_CONFIG [wChunk "w" (1/5)] =
        [t] ∧ t ∈ [wChunk "w" (1/5)] ∧ ∀ x ∈ [wChunk "w" (1/5)], x.score ≤ t.score :=
  ⟨by simp,
   by
     intro x hx
     rw [List.mem_singleton.mp hx]
     norm_num [wChunk, SearchService.DEFAULT_CONFIG],
   applySmartCutoff_below_floor_returns_top [wChunk "w" (1/5)] (by simp)
     (by
       intro x hx
       rw [List.mem_singleton.mp hx]
       norm_num [wChunk, SearchService.DEFAULT_CONFIG])⟩

/-- Witness for C7 at the default configuration and the one-window list
`[wWin]`. -/
theorem windowsToChunks_vectorSpan_bounds_witness :
    (0 ≤ SemanticSplitter.defaultConfig.maxRawChars) ∧
    (∀ c ∈ SemanticSplitter.windowsToChunks SemanticSplitter.defaultConfig
        (fun _ _ => 0) 3 [wWin],
      c.vectorSpan.stop = c.endIndex ∧ c.vectorSpan.start ≤ c.startIndex ∧
        (c.startIndex : ℚ) - (c.vectorSpan.start : ℚ) ≤
          0.25 * SemanticSplitter.defaultConfig.maxRawChars) ∧
    ∀ c rest, SemanticSplitter.windowsToChunks SemanticSplitter.defaultConfig
        (fun _ _ => 0) 3 [wWin] = c :: rest →
      c.vectorSpan.start = c.startIndex :=
  ⟨by norm_num [SemanticSplitter.defaultConfig],
   (windowsToChunks_vectorSpan_bounds SemanticSplitter.defaultConfig (fun _ _ => 0) 3 [wWin]
     (by norm_num [SemanticSplitter.defaultConfig])).1,
   (windowsToChunks_vectorSpan_bounds SemanticSplitter.defaultConfig (fun _ _ => 0) 3 [wWin]
     (by norm_num [SemanticSplitter.defaultConfig])).2⟩

/-- Witness for C1: the AST path at the one-window list `[wWin]` with file
end `3`, and the fallback path at the one-line file `"a"`. -/
theorem splitter_rawSpan_partition_witness :
    ([wWin] ≠ ([] : List SemanticSplitter.Window)) ∧
    List.Chain' (fun w1 w2 =>
      SemanticSplitter.windowEnd w1 ≤ SemanticSplitter.windowEnd w2) [wWin] ∧
    (∀ w ∈ [wWin], SemanticSplitter.windowEnd w ≤ 3) ∧
    ([['a']] ≠ ([] : List (List Char))) ∧
    (∃ c cs, SemanticSplitter.windowsToChunks SemanticSplitter.defaultConfig
        (fun _ _ => 0) 3 [wWin] = c :: cs ∧
      c.rawSpan.start = 0 ∧
      List.Chain' SemanticSplitter.spanAdj ((c :: cs).map SemanticSplitter.ChunkMeta.rawSpan) ∧
      ((c :: cs).map (fun x => x.rawSpan.stop)).getLast? = some 3 ∧
      ∀ l : List Char, l.length = 3 →
        ((c :: cs).map (fun x => sliceL l x.rawSpan.start x.rawSpan.stop)).flatten = l) ∧
    (∃ c cs, SemanticSplitter.fallbackSplit SemanticSplitter.defaultConfig "f" [['a']] =
        c :: cs ∧
      c.rawSpan.start = 0 ∧
      List.Chain' SemanticSplitter.spanAdj ((c :: cs).map SemanticSplitter.ChunkMeta.rawSpan) ∧
      ((c :: cs).map (fun x => x.rawSpan.stop)).getLast? = some (joinNl [['a']]).length ∧
      ((c :: cs).map (fun x => sliceL (joinNl [['a']]) x.rawSpan.start x.rawSpan.stop)).flatten
        = joinNl [['a']]) :=
  ⟨by simp, by simp, by decide, by simp,
   splitter_rawSpan_partition.1 SemanticSplitter.defaultConfig (fun _ _ => 0) 3 [wWin]
     (by simp) (by simp) (by decide),
   splitter_rawSpan_partition.2 SemanticSplitter.defaultConfig "f" [['a']] (by simp)⟩

/-- Witness for C4 at one file `p` (new hash `h`, one new record) over a
store holding one old-hash record. -/
theorem vectorStore_upsert_monotonic_witness :
    ([wRecNew] ≠ ([] : List VectorStore.ChunkRecord)) ∧
    (∀ r ∈ [wRecNew], r.file_path = "p" ∧ r.file_hash = "h") ∧
    VectorStore.hasRecordFor "p" [wRecOld] ∧
    (([wFile].map (fun f => f.records)).flatten ≠ []) ∧
    (wFile ∈ [wFile]) ∧ (wFile.records ≠ []) ∧
    (∀ f ∈ [wFile], ∀ r ∈ f.records, r.file_path = f.path ∧ r.file_hash = f.hash) ∧
    (([wFile].map (fun f => f.path)).Nodup) ∧
    VectorStore.hasRecordFor wFile.path [wRecOld] ∧
    (VectorStore.upsertFileOps "p" "h" [wRecNew] =
      [VectorStore.VOp.insertRecs [wRecNew], VectorStore.VOp.deleteStale [("p", "h")]]) ∧
    (∀ s ∈ VectorStore.runStates [wRecOld] (VectorStore.upsertFileOps "p" "h" [wRecNew]),
      VectorStore.hasRecordFor "p" s) ∧
    (VectorStore.subBatchOps [wFile] =
      [VectorStore.VOp.insertRecs (([wFile].map (fun f => f.records)).flatten),
       VectorStore.VOp.deleteStale ([wFile].map (fun f => (f.path, f.hash)))]) ∧
    (∀ s ∈ VectorStore.runStates [wRecOld] (VectorStore.subBatchOps [wFile]),
      VectorStore.hasRecordFor wFile.path s) :=
  ⟨by simp, by decide, ⟨wRecOld, by simp, rfl⟩, by decide, by simp, by decide, by decide,
   by decide, ⟨wRecOld, by simp, rfl⟩,
   vectorStore_upsert_monotonic.1 "p" "h" [wRecNew] (by simp),
   vectorStore_upsert_monotonic.2.2.1 "p" "h" [wRecNew] [wRecOld] (by simp) (by decide)
     ⟨wRecOld, by simp, rfl⟩,
   vectorStore_upsert_monotonic.2.2.2.2.1 [wFile] (by decide),
   vectorStore_upsert_monotonic.2.2.2.2.2 [wFile] wFile [wRecOld] (by simp) (by decide)
     (by decide) (by decide) ⟨wRecOld, by simp, rfl⟩⟩

/-- Witness for C5 at a single-file batch whose file has non-null
content. -/
theorem db_batchUpsert_two_transactions_witness :
    ([wFileMeta].filterMap (fun f => f.content.map (fun c => (f.path, c))) ≠ []) ∧
    (Db.batchUpsertTxs [wFileMeta] =
      [[wFileMeta].map Db.DbWrite.filesUpsert,
       Db.batchUpsertFileFtsTx
         ([wFileMeta].filterMap (fun f => f.content.map (fun c => (f.path, c))))] ∧
    (∀ w ∈ [wFileMeta].map Db.DbWrite.filesUpsert, Db.isFilesWrite w = true) ∧
    (∀ w ∈ Db.batchUpsertFileFtsTx
        ([wFileMeta].filterMap (fun f => f.content.map (fun c => (f.path, c)))),
      Db.isFilesWrite w = false) ∧
    (∀ st : Db.DbState,
      (Db.applyTx st ([wFileMeta].map Db.DbWrite.filesUpsert)).ftsRows = st.ftsRows)) :=
  ⟨by decide, db_batchUpsert_two_transactions [wFileMeta] (by decide)⟩

/-- Witness for C6 at one seed (index 0, score one half) in a two-chunk
file. -/
theorem expandNeighbors_score_nearest_seed_witness :
    ([wChunk "f" (1/2)] ≠ ([] : List SearchService.SChunk)) ∧
    ∀ c ∈ GraphExpander.expandNeighborsFile SearchService.DEFAULT_CONFIG "f"
        [wChunk "f" (1/2)]
        [{ file_path := "f", chunk_index := 0 }, { file_path := "f", chunk_index := 1 }] [],
      ∃ dmin smax,
        (∃ s ∈ [wChunk "f" (1/2)],
          (c.chunkIndex - s.chunkIndex).natAbs = dmin ∧ s.score = smax) ∧
        (∀ s ∈ [wChunk "f" (1/2)], dmin ≤ (c.chunkIndex - s.chunkIndex).natAbs) ∧
        (∀ s ∈ [wChunk "f" (1/2)],
          (c.chunkIndex - s.chunkIndex).natAbs = dmin → s.score ≤ smax) ∧
        c.score = smax * SearchService.DEFAULT_CONFIG.decayNeighbor ^ dmin :=
  ⟨by simp,
   expandNeighbors_score_nearest_seed SearchService.DEFAULT_CONFIG "f" [wChunk "f" (1/2)]
     [{ file_path := "f", chunk_index := 0 }, { file_path := "f", chunk_index := 1 }] []
     (by simp)⟩

/-- Witness for C3 at the default configuration, the constant `2` and a
one-candidate list. -/
theorem applySmartCutoff_joint_scale_invariant_witness :
    (0 : ℚ) < 2 ∧
    (SearchService.applySmartCutoff (SearchService.scaleCfg 2 SearchService.DEFAULT_CONFIG)
        ([wChunk "a" (1/2)].map (SearchService.scaleChunk 2)) =
      (SearchService.applySmartCutoff SearchService.DEFAULT_CONFIG
        [wChunk "a" (1/2)]).map (SearchService.scaleChunk 2) ∧
    (SearchService.applySmartCutoff (SearchService.scaleCfg 2 SearchService.DEFAULT_CONFIG)
        ([wChunk "a" (1/2)].map (SearchService.scaleChunk 2))).map SearchService.chunkKey =
      (SearchService.applySmartCutoff SearchService.DEFAULT_CONFIG
        [wChunk "a" (1/2)]).map SearchService.chunkKey) :=
  ⟨by norm_num,
   applySmartCutoff_joint_scale_invariant SearchService.DEFAULT_CONFIG 2 (by norm_num)
     [wChunk "a" (1/2)]⟩
